import Mathlib

/-!
# A verification development for the `code_ast` tree-walk and edit pipeline

This file gives a shallow embedding, in Lean, of the core of the
`code_ast` Python library: the span utilities (`parsers.match_span`),
the direct span-replace path (`ast._replace_all` / `ast._is_overlapping`),
the generic visitor engine (`visitor.ASTVisitor.walk` and its
compositions), the bottom-up edit-tree construction
(`transformer.ASTTransformer.on_leave` / `EditTree.__init__`) and the
cursor-driven edit executor (`transformer.EditExecutor`).

Conventions of the embedding:
* Python strings are `List Char`; `s[a:b]` becomes `(l.drop a).take (b - a)`,
  which matches Python's silently-truncating slice semantics.
* tree-sitter positions `(row, column)` are `Nat × Nat` compared
  lexicographically, as Python compares tuples.
* Fallible Python code (`assert`, `IndexError`, `%`-format arity errors)
  is modelled in `Option`: `none` is a raised exception.
* tree-sitter nodes are immutable values; Python's `==` on nodes is
  modelled as structural (decidable) equality.
-/

namespace CodeAst

/-- A tree-sitter point: zero-indexed `(row, column)`. -/
abbrev Pos := Nat × Nat

/-- A decoded source line (Python `str` as a list of characters). -/
abbrev Line := List Char

/-- Python tuple comparison `p <= q` on `(row, column)` pairs:
lexicographic order. -/
def posLe (p q : Pos) : Bool :=
  decide (p.1 < q.1 ∨ (p.1 = q.1 ∧ p.2 ≤ q.2))

/-- Python tuple comparison `p < q` on `(row, column)` pairs. -/
def posLt (p q : Pos) : Bool :=
  decide (p.1 < q.1 ∨ (p.1 = q.1 ∧ p.2 < q.2))

theorem posLe_iff {p q : Pos} :
    posLe p q = true ↔ (p.1 < q.1 ∨ (p.1 = q.1 ∧ p.2 ≤ q.2)) := by
  simp [posLe]

theorem posLt_iff {p q : Pos} :
    posLt p q = true ↔ (p.1 < q.1 ∨ (p.1 = q.1 ∧ p.2 < q.2)) := by
  simp [posLt]

theorem posLe_refl (p : Pos) : posLe p p = true := by
  simp [posLe]

theorem posLe_zero (p : Pos) : posLe (0, 0) p = true := by
  rcases p with ⟨l, c⟩
  rw [posLe_iff]
  omega

theorem posLe_trans {p q r : Pos} (h₁ : posLe p q = true)
    (h₂ : posLe q r = true) : posLe p r = true := by
  rw [posLe_iff] at *
  omega

theorem posLe_of_posLt {p q : Pos} (h : posLt p q = true) : posLe p q = true := by
  rw [posLt_iff] at h
  rw [posLe_iff]
  omega

theorem posLt_of_posLe_of_posLt {p q r : Pos} (h₁ : posLe p q = true)
    (h₂ : posLt q r = true) : posLt p r = true := by
  rw [posLe_iff] at h₁
  rw [posLt_iff] at *
  omega

theorem posLe_antisymm {p q : Pos} (h₁ : posLe p q = true)
    (h₂ : posLe q p = true) : p = q := by
  rw [posLe_iff] at *
  rcases p with ⟨a, b⟩
  rcases q with ⟨c, d⟩
  simp_all
  omega

theorem posLe_total (p q : Pos) : posLe p q = true ∨ posLe q p = true := by
  rw [posLe_iff, posLe_iff]
  omega

/-- A syntax-tree node, as delivered by the parsing collaborator: a type
tag, a start and end point, and the ordered list of children
(`tree_sitter.Node`). -/
inductive Node : Type where
  | mk : String → Pos → Pos → List Node → Node
deriving Inhabited

/-- The node's grammar type tag (`node.type`). -/
def Node.type : Node → String
  | .mk t _ _ _ => t

/-- `node.start_point`. -/
def Node.startPoint : Node → Pos
  | .mk _ s _ _ => s

/-- `node.end_point`. -/
def Node.endPoint : Node → Pos
  | .mk _ _ e _ => e

/-- `node.children`. -/
def Node.children : Node → List Node
  | .mk _ _ _ cs => cs

/-- `node.child_count` (`len(node.children)` in tree-sitter). -/
def Node.childCount (n : Node) : Nat := n.children.length

mutual

/-- Structural equality test on nodes; models Python `==` on tree-sitter
nodes (two nodes of one parse are equal exactly when they are the same
node, which structural equality captures for nodes of a well-formed
tree). -/
def nodeBeq : Node → Node → Bool
  | .mk t₁ s₁ e₁ c₁, .mk t₂ s₂ e₂ c₂ =>
    t₁ == t₂ && s₁ == s₂ && e₁ == e₂ && nodeBeqL c₁ c₂

/-- Pointwise `nodeBeq` on child lists. -/
def nodeBeqL : List Node → List Node → Bool
  | [], [] => true
  | a :: as, b :: bs => nodeBeq a b && nodeBeqL as bs
  | _, _ => false

end

mutual

theorem nodeBeq_iff : ∀ a b : Node, nodeBeq a b = true ↔ a = b
  | .mk t₁ s₁ e₁ c₁, .mk t₂ s₂ e₂ c₂ => by
    rw [nodeBeq]
    constructor
    · intro h
      simp only [Bool.and_eq_true, beq_iff_eq] at h
      obtain ⟨⟨⟨ht, hs⟩, he⟩, hc⟩ := h
      rw [ht, hs, he, (nodeBeqL_iff c₁ c₂).mp hc]
    · intro h
      cases h
      simp only [Bool.and_eq_true, beq_iff_eq, eq_self_iff_true, true_and,
        and_true]
      exact (nodeBeqL_iff c₁ c₁).mpr rfl

theorem nodeBeqL_iff : ∀ as bs : List Node, nodeBeqL as bs = true ↔ as = bs
  | [], [] => by simp [nodeBeqL]
  | [], _ :: _ => by simp [nodeBeqL]
  | _ :: _, [] => by simp [nodeBeqL]
  | a :: as, b :: bs => by
    rw [nodeBeqL]
    simp only [Bool.and_eq_true, List.cons.injEq]
    rw [nodeBeq_iff a b, nodeBeqL_iff as bs]

end

instance : BEq Node := ⟨nodeBeq⟩

instance : LawfulBEq Node where
  eq_of_beq h := (nodeBeq_iff _ _).mp h
  rfl := (nodeBeq_iff _ _).mpr rfl

instance : DecidableEq Node := fun a b =>
  decidable_of_iff (nodeBeq a b = true) (nodeBeq_iff a b)

/-! ## Span extraction: `parsers.match_span`

`match_span(source_tree, source_lines)` slices the text the node spans
out of the decoded source lines.  Its two `assert`s and the one possible
`IndexError` (`source_area[0]` on an empty slice) are the `none` cases;
Python's character slicing silently truncates out-of-range columns. -/

/-- Replace the last element of a list with `f` of it (models Python's
`lst[-1] = f(lst[-1])`); the identity on `[]`. -/
def updLast (f : Line → Line) : List Line → List Line
  | [] => []
  | [a] => [f a]
  | a :: rest => a :: updLast f rest

/-- `parsers.match_span`.  `none` models a raised `AssertionError`
(ill-formed span) or `IndexError` (start line beyond the last line). -/
def matchSpan (n : Node) (sourceLines : List Line) : Option Line :=
  let sl := n.startPoint.1
  let sc := n.startPoint.2
  let el := n.endPoint.1
  let ec := n.endPoint.2
  if ¬ sl ≤ el then none
  else if sl = el ∧ ¬ sc ≤ ec then none
  else
    let sourceArea := (sourceLines.drop sl).take (el + 1 - sl)
    if sl = el then
      match sourceArea with
      | [] => none
      | l :: _ => some ((l.drop sc).take (ec - sc))
    else
      match sourceArea with
      | [] => none
      | l :: rest => some (List.intercalate ['\n'] (updLast (·.take ec) (l.drop sc :: rest)))

/-! ## The direct span-replace path: `ast._is_overlapping`, `ast._replace`,
`ast._replace_all` -/

/-- A batch-replace work item `(start_point, end_point, target)`, the
triple `_replace_all` builds for each node/target pair. -/
abbrev Span3 := Pos × Pos × Line

/-- Python `<=` on characters (code-point order). -/
def charLe (a b : Char) : Bool := decide (a.val ≤ b.val)

/-- Python `<=` on strings: lexicographic code-point order. -/
def strLe : Line → Line → Bool
  | [], _ => true
  | _ :: _, [] => false
  | a :: as, b :: bs =>
    if a = b then strLe as bs else charLe a b

/-- Python tuple `<=` on `(start, end, target)` triples: lexicographic. -/
def span3Le (x y : Span3) : Bool :=
  if x.1 = y.1 then
    (if x.2.1 = y.2.1 then strLe x.2.2 y.2.2 else posLe x.2.1 y.2.1)
  else posLe x.1 y.1

/-- Insert into a `span3Le`-sorted list, keeping it sorted. -/
def insertSpan (x : Span3) : List Span3 → List Span3
  | [] => [x]
  | y :: rest => if span3Le x y then x :: y :: rest else y :: insertSpan x rest

/-- Sort work items ascending by `(start, end, target)`; models Python's
`sorted(spans)`. -/
def sortSpans : List Span3 → List Span3
  | [] => []
  | x :: rest => insertSpan x (sortSpans rest)

/-- The adjacent-pair scan of `_is_overlapping`: does some earlier span's
end point reach (`>=`) the next span's start point? -/
def adjacentOverlap : List Span3 → Bool
  | x :: y :: rest => posLe y.1 x.2.1 || adjacentOverlap (y :: rest)
  | _ => false

/-- `ast._is_overlapping`: sort the `(start, end, target)` triples and
test adjacent pairs with `earlier.end >= later.start`. -/
def isOverlapping (spans : List Span3) : Bool :=
  adjacentOverlap (sortSpans spans)

/-- One splice of `_replace_all`'s loop body (also the body of
`_replace`): `source_lines[start_line:end_line+1] =
[prefix + target + postfix]`.  `none` is the `IndexError` when a line
index is out of range. -/
def spliceSpan (sourceLines : List Line) (s e : Pos) (target : Line) :
    Option (List Line) :=
  match sourceLines.get? s.1 with
  | none => none
  | some startLineText =>
    match sourceLines.get? e.1 with
    | none => none
    | some endLineText =>
      let front := startLineText.take s.2
      let back := endLineText.drop e.2
      some (sourceLines.take s.1 ++ [front ++ target ++ back]
            ++ sourceLines.drop (max s.1 (e.1 + 1)))

/-- `ast._replace`: single-node replace. -/
def replaceOne (sourceLines : List Line) (node : Pos × Pos) (target : Line) :
    Option Line :=
  (spliceSpan sourceLines node.1 node.2 target).map (List.intercalate ['\n'])

/-- Apply the splices in the given order, failing if any one fails. -/
def applySplices : List Span3 → List Line → Option (List Line)
  | [], ls => some ls
  | (s, e, t) :: rest, ls =>
    match spliceSpan ls s e t with
    | none => none
    | some ls' => applySplices rest ls'

/-- `ast._replace_all`: batch replace.  `none` models the
`AssertionError`s (length mismatch, overlapping spans) and any
`IndexError` during splicing; the stored source lines are a copy, so an
error leaves the AST's lines untouched (all-or-nothing). -/
def replaceAllFn (sourceLines : List Line) (nodes : List (Pos × Pos))
    (targets : List Line) : Option Line :=
  if nodes.length ≠ targets.length then none
  else
    let spans : List Span3 :=
      (nodes.zip targets).map (fun p => (p.1.1, p.1.2, p.2))
    if isOverlapping spans then none
    else
      (applySplices (sortSpans spans).reverse sourceLines).map
        (List.intercalate ['\n'])

/-! ## The top-level entry point: `code_ast.ast`

`ast(source_code, lang, ...)` first rejects whitespace-only input with a
`ValueError`, then resolves the language (the `"guess"` default raises
`NotImplementedError`), then hands the source to the external
tree-sitter parser and checks the returned tree for `ERROR` nodes.  The
parser itself is outside this core, so it enters the model as an oracle
`parse : String → List Char → Node`. -/

/-- Python `str.splitlines()` line-boundary characters. -/
def pyLineBreak (c : Char) : Bool :=
  decide (c = '\n' ∨ c = '\r' ∨ c = '\x0b' ∨ c = '\x0c' ∨ c = '\x1c'
    ∨ c = '\x1d' ∨ c = '\x1e' ∨ c = '\u0085' ∨ c = '\u2028' ∨ c = '\u2029')

/-- Worker for `pySplitlines`: `acc` holds the current line reversed; a
`"\r\n"` pair counts as a single boundary. -/
def splitlinesGo (acc : Line) : List Char → List Line
  | [] => if acc.isEmpty then [] else [acc.reverse]
  | c :: rest =>
    if c = '\r' then
      if rest.head? = some '\n' then acc.reverse :: splitlinesGo [] rest.tail
      else acc.reverse :: splitlinesGo [] rest
    else if pyLineBreak c then acc.reverse :: splitlinesGo [] rest
    else splitlinesGo (c :: acc) rest
termination_by l => l.length
decreasing_by
  all_goals simp only [List.length_cons]
  all_goals first
    | omega
    | (have h := List.length_tail rest
       omega)

/-- Python `str.splitlines()`: split at line boundaries (treating
`"\r\n"` as one boundary), dropping the terminators and any final empty
line.  This is how `ASTParser.parse` produces `source_lines`. -/
def pySplitlines (s : List Char) : List Line := splitlinesGo [] s

/-- Characters Python's `str.strip()` removes (the ASCII whitespace set;
the claims concern these). -/
def pyIsSpace (c : Char) : Bool :=
  decide (c = ' ' ∨ c = '\t' ∨ c = '\n' ∨ c = '\r' ∨ c = '\x0b' ∨ c = '\x0c')

/-- Python `str.strip()`. -/
def pyStrip (s : List Char) : List Char :=
  ((s.dropWhile pyIsSpace).reverse.dropWhile pyIsSpace).reverse

/-- The exceptions the entry point can raise. -/
inductive PyError : Type where
  | valueError (source : List Char)
  | notImplementedError
  | syntaxError (node : Node)
deriving DecidableEq

/-- `ParserConfig`, reduced to the fields the core reads. -/
structure ParserConfigM where
  lang : String
  errMode : String
deriving DecidableEq

/-- `SourceCodeAST`: the value `ast(...)` returns on success. -/
structure SourceCodeASTM where
  config : ParserConfigM
  sourceTree : Node
  sourceLines : List Line

mutual

/-- First node with type tag `"ERROR"` in the walk order of
`ErrorVisitor` (pre-order), if any. -/
def findErrorNode : Node → Option Node
  | .mk t s e cs =>
    if t = "ERROR" then some (.mk t s e cs) else findErrorNodeL cs

/-- `findErrorNode` over a forest, left to right. -/
def findErrorNodeL : List Node → Option Node
  | [] => none
  | c :: cs =>
    match findErrorNode c with
    | some e => some e
    | none => findErrorNodeL cs

end

/-- `check_tree_for_errors`: with mode `"raise"`, raise a `SyntaxError`
at the first `ERROR` node; `"warn"` only logs; `"ignore"` skips the
walk. -/
def checkTreeForErrors (tree : Node) (mode : String) : Option Node :=
  if mode = "ignore" then none
  else if mode = "raise" then findErrorNode tree
  else none

/-- The `ast(source_code, lang = "guess", ...)` entry point
(`code_ast/__init__.py`), with the external tree-sitter parser abstracted
as the oracle `parse`. -/
def astFn (parse : String → List Char → Node) (sourceCode : List Char)
    (lang : String) (errMode : String) : Except PyError SourceCodeASTM :=
  if (pyStrip sourceCode).length = 0 then .error (.valueError sourceCode)
  else if lang = "guess" then .error .notImplementedError
  else
    let tree := parse lang sourceCode
    let sourceLines := pySplitlines sourceCode
    match checkTreeForErrors tree errMode with
    | some e => .error (.syntaxError e)
    | none => .ok ⟨⟨lang, errMode⟩, tree, sourceLines⟩

/-! ## Claims about the span utilities and the direct replace path -/

/-- C6: `replace_all(nodes, targets)` signals a usage error (an
`AssertionError`, modelled as `none`) whenever the two lists differ in
length, or whenever after sorting the `(start, end, target)` triples
some span's end point is `>=` the next span's start point; in every
such case no output is produced (the checks precede every splice, and
the splices operate on a copy of the stored lines, so the stored source
lines are unchanged). -/
theorem replaceAll_usage_error (sourceLines : List Line)
    (nodes : List (Pos × Pos)) (targets : List Line)
    (h : nodes.length ≠ targets.length ∨
      isOverlapping ((nodes.zip targets).map (fun p => (p.1.1, p.1.2, p.2)))
        = true) :
    replaceAllFn sourceLines nodes targets = none := by
  rcases h with h | h
  · simp [replaceAllFn, h]
  · by_cases hl : nodes.length = targets.length
    · simp [replaceAllFn, hl, h]
    · simp [replaceAllFn, hl]

theorem replaceAll_usage_error_witness :
    (([((0, 0), (0, 3)), ((0, 2), (0, 5))] : List (Pos × Pos)).length ≠
        ([['X'], ['Y']] : List Line).length ∨
      isOverlapping ((([((0, 0), (0, 3)), ((0, 2), (0, 5))] :
          List (Pos × Pos)).zip [['X'], ['Y']]).map
        (fun p => (p.1.1, p.1.2, p.2))) = true) ∧
    replaceAllFn [['a', 'b', 'c', 'd', 'e', 'f']]
      [((0, 0), (0, 3)), ((0, 2), (0, 5))] [['X'], ['Y']] = none :=
  ⟨Or.inr (by decide),
    replaceAll_usage_error _ _ _ (Or.inr (by decide))⟩

/-- C7 counterexample: the claim says the touching spans
(line 0, cols 0–3) and (line 0, cols 3–5) succeed, but `_is_overlapping`
compares with `>=`, so batch replace raises the usage `AssertionError`
(`none`) on them as well. -/
theorem replaceAll_touching_spans_rejected :
    replaceAllFn [['a', 'b', 'c', 'd', 'e', 'f']]
      [((0, 0), (0, 3)), ((0, 3), (0, 5))] [['X'], ['Y']] = none := by
  decide

/-- C7 (amended): batch replace raises a usage error both for the
overlapping spans (0,0–3)/(0,2–5) and for the touching spans
(0,0–3)/(0,3–5), because the overlap check rejects `end >= next start`;
disjoint spans with a one-column gap, in arbitrary input order, go
through. -/
theorem replaceAll_overlap_scenario :
    replaceAllFn [['a', 'b', 'c', 'd', 'e', 'f']]
      [((0, 0), (0, 3)), ((0, 2), (0, 5))] [['X'], ['Y']] = none ∧
    replaceAllFn [['a', 'b', 'c', 'd', 'e', 'f']]
      [((0, 0), (0, 3)), ((0, 3), (0, 5))] [['X'], ['Y']] = none ∧
    replaceAllFn [['a', 'b', 'c', 'd', 'e', 'f']]
      [((0, 3), (0, 5)), ((0, 0), (0, 2))] [['Y'], ['X']] =
      some ['X', 'c', 'Y', 'f'] := by
  refine ⟨by decide, by decide, by decide⟩

/-- C9 counterexample: the node spanning (0,0)–(0,9) exceeds the column
bounds of the single 3-character line, yet `match_span` returns its
(truncated) text instead of reporting a bounds error — Python slices
truncate silently. -/
theorem matchSpan_column_overrun_returns_text :
    matchSpan (.mk "identifier" (0, 0) (0, 9) []) [['a', 'b', 'c']] =
      some ['a', 'b', 'c'] := by
  decide

/-- C9 (amended): `match_span` reports an error exactly when the span is
ill-formed (end before start) or the start line is at or beyond the
number of available lines; spans exceeding only column bounds or only
the end-line bound silently return the (possibly truncated) text. -/
theorem matchSpan_error_iff (n : Node) (sourceLines : List Line) :
    matchSpan n sourceLines = none ↔
      (n.endPoint.1 < n.startPoint.1 ∨
        (n.startPoint.1 = n.endPoint.1 ∧ n.endPoint.2 < n.startPoint.2) ∨
        sourceLines.length ≤ n.startPoint.1) := by
  rcases n with ⟨t, ⟨sl, sc⟩, ⟨el, ec⟩, cs⟩
  simp only [matchSpan, Node.startPoint, Node.endPoint]
  by_cases h₁ : sl ≤ el
  · have harea : ((sourceLines.drop sl).take (el + 1 - sl) = []) ↔
        sourceLines.length ≤ sl := by
      rw [List.take_eq_nil_iff, List.drop_eq_nil_iff]
      omega
    rw [if_neg (not_not_intro h₁)]
    by_cases h₂ : sl = el ∧ ¬ sc ≤ ec
    · rw [if_pos h₂]
      constructor
      · intro _
        exact Or.inr (Or.inl ⟨h₂.1, by omega⟩)
      · intro _
        rfl
    · rw [if_neg h₂]
      by_cases h₃ : sl = el
      · rw [if_pos h₃]
        rcases hA : (sourceLines.drop sl).take (el + 1 - sl) with _ | ⟨l, rest⟩
        · constructor
          · intro _
            exact Or.inr (Or.inr (harea.mp hA))
          · intro _
            rfl
        · constructor
          · intro h
            exact absurd h (by simp)
          · intro h
            rcases h with h | h | h
            · omega
            · exact absurd ⟨h₃, by omega⟩ h₂
            · rw [harea.mpr h] at hA
              exact absurd hA (by simp)
      · rw [if_neg h₃]
        rcases hA : (sourceLines.drop sl).take (el + 1 - sl) with _ | ⟨l, rest⟩
        · constructor
          · intro _
            exact Or.inr (Or.inr (harea.mp hA))
          · intro _
            rfl
        · constructor
          · intro h
            exact absurd h (by simp)
          · intro h
            rcases h with h | h | h
            · omega
            · exact absurd h.1 h₃
            · rw [harea.mpr h] at hA
              exact absurd hA (by simp)
  · rw [if_pos h₁]
    constructor
    · intro _
      exact Or.inl (by omega)
    · intro _
      rfl

/-- C10: a whitespace-only `source_code` makes the `ast(...)` entry
point raise `ValueError` before the language is resolved or the parser
oracle is consulted: the result is this error for every parser, so no
tree and no `SourceCodeAST` is ever produced. -/
theorem ast_rejects_blank_source (parse : String → List Char → Node)
    (sourceCode : List Char) (lang errMode : String)
    (h : pyStrip sourceCode = []) :
    astFn parse sourceCode lang errMode = .error (.valueError sourceCode) := by
  simp [astFn, h]

theorem ast_rejects_blank_source_witness :
    pyStrip [' ', '\n', '\t'] = [] ∧
    astFn (fun _ _ => .mk "module" (0, 0) (0, 0) []) [' ', '\n', '\t']
      "python" "raise" = .error (.valueError [' ', '\n', '\t']) :=
  ⟨by decide,
    ast_rejects_blank_source (fun _ _ => .mk "module" (0, 0) (0, 0) [])
      [' ', '\n', '\t'] "python" "raise" (by decide)⟩

/-! ## The traversal engine: `visitor.ASTVisitor.walk`

A visitor is arbitrary stateful Python code; the engine only observes,
per node, the normalised enter result (`visitor_fn(node) is not False`)
and runs the leave handler for its effect.  We therefore model a visitor
as a state machine `SVisitor σ`.  `ASTVisitor.walk` itself is a while
loop over a tree-sitter `TreeCursor`; the cursor is a zipper
(`TCursor`), and the loop is `walkLoop`/`stepLeave`/`popLoop` below,
one function per region of the loop body.  `walkRec` is the recursive
reference traversal the loop is proved equal to. -/

/-- A visitor as the engine observes it: `onVisit` is the dispatched
enter handler together with the loop's `is not False` normalisation of
its result; `onLeave` is the dispatched leave handler. -/
structure SVisitor (σ : Type) where
  onVisit : σ → Node → σ × Bool
  onLeave : σ → Node → σ

mutual

/-- Recursive reference traversal: enter the node, walk the children if
the enter result allows descent, then leave the node. -/
def walkRec {σ : Type} (V : SVisitor σ) (s : σ) : Node → σ
  | .mk t sp ep cs =>
    let p := V.onVisit s (.mk t sp ep cs)
    let s₂ := if p.2 then walkRecL V p.1 cs else p.1
    V.onLeave s₂ (.mk t sp ep cs)

/-- `walkRec` over a forest, left to right. -/
def walkRecL {σ : Type} (V : SVisitor σ) (s : σ) : List Node → σ
  | [] => s
  | c :: cs => walkRecL V (walkRec V s c) cs

end

/-- One zipper frame of the tree-sitter cursor: the parent's type tag
and span, the already-passed left siblings (reversed) and the pending
right siblings. -/
structure Frame where
  ptype : String
  pstart : Pos
  pend : Pos
  leftRev : List Node
  right : List Node

/-- The tree-sitter `TreeCursor`: the focused node plus the path back
to the root. -/
structure TCursor where
  node : Node
  stack : List Frame

/-- Rebuild the parent node a frame describes around the focus. -/
def reassemble (f : Frame) (n : Node) : Node :=
  .mk f.ptype f.pstart f.pend (f.leftRev.reverse ++ n :: f.right)

/-- `cursor.goto_first_child()`. -/
def gotoFirstChild (c : TCursor) : Option TCursor :=
  match c.node with
  | .mk _ _ _ [] => none
  | .mk t sp ep (c₀ :: cs) => some ⟨c₀, ⟨t, sp, ep, [], cs⟩ :: c.stack⟩

/-- `cursor.goto_next_sibling()`. -/
def gotoNextSibling (c : TCursor) : Option TCursor :=
  match c.stack with
  | [] => none
  | f :: rest =>
    match f.right with
    | [] => none
    | s :: ss =>
      some ⟨s, ⟨f.ptype, f.pstart, f.pend, c.node :: f.leftRev, ss⟩ :: rest⟩

/-- `cursor.goto_parent()`. -/
def gotoParent (c : TCursor) : Option TCursor :=
  match c.stack with
  | [] => none
  | f :: rest => some ⟨reassemble f c.node, rest⟩

mutual

/-- Number of nodes of a tree. -/
def nodeSize : Node → Nat
  | .mk _ _ _ cs => 1 + nodeSizeL cs

/-- Number of nodes of a forest. -/
def nodeSizeL : List Node → Nat
  | [] => 0
  | c :: cs => nodeSize c + nodeSizeL cs

end

/-- Nodes still pending in the frames of a cursor stack (the right
siblings at every level). -/
def stackWeight : List Frame → Nat
  | [] => 0
  | f :: rest => nodeSizeL f.right + stackWeight rest

theorem nodeSize_pos (n : Node) : 1 ≤ nodeSize n := by
  rcases n with ⟨t, sp, ep, cs⟩
  rw [nodeSize]
  omega

theorem gotoFirstChild_measure {c c' : TCursor}
    (h : gotoFirstChild c = some c') :
    nodeSize c'.node + stackWeight c'.stack + 1 =
      nodeSize c.node + stackWeight c.stack ∧
    c'.stack.length = c.stack.length + 1 := by
  rcases c with ⟨⟨t, sp, ep, cs⟩, stack⟩
  rcases cs with _ | ⟨c₀, cs⟩
  · exact absurd h (by simp [gotoFirstChild])
  · rw [gotoFirstChild] at h
    cases h
    simp [nodeSize, nodeSizeL, stackWeight]
    omega

theorem gotoNextSibling_measure {c c' : TCursor}
    (h : gotoNextSibling c = some c') :
    nodeSize c'.node + stackWeight c'.stack = stackWeight c.stack ∧
    c'.stack.length = c.stack.length := by
  rcases c with ⟨n, _ | ⟨f, rest⟩⟩
  · exact absurd h (by simp [gotoNextSibling])
  · rcases hr : f.right with _ | ⟨s, ss⟩
    · rw [gotoNextSibling] at h
      simp [hr] at h
    · rw [gotoNextSibling] at h
      simp only [hr] at h
      cases h
      simp [stackWeight, hr, nodeSizeL]
      omega

theorem gotoParent_measure {c cp : TCursor} (h : gotoParent c = some cp) :
    stackWeight cp.stack ≤ stackWeight c.stack ∧
    cp.stack.length + 1 = c.stack.length := by
  rcases c with ⟨n, _ | ⟨f, rest⟩⟩
  · exact absurd h (by simp [gotoParent])
  · rw [gotoParent] at h
    cases h
    simp [stackWeight]

mutual

/-- `ASTVisitor.walk`'s loop body, from the top: enter the focused node;
if the result allows, descend to the first child, otherwise leave the
node and continue to a sibling (`stepLeave`). -/
def walkLoop {σ : Type} (V : SVisitor σ) (s : σ) (c : TCursor) : σ :=
  let p := V.onVisit s c.node
  if p.2 then
    match h : gotoFirstChild c with
    | some c' => walkLoop V p.1 c'
    | none => stepLeave V (V.onLeave p.1 c.node) c
  else stepLeave V (V.onLeave p.1 c.node) c
termination_by (nodeSize c.node + stackWeight c.stack, 0, c.stack.length)
decreasing_by
  · have hm := gotoFirstChild_measure h
    exact Prod.Lex.left _ _ (by omega)
  · have hp := nodeSize_pos c.node
    exact Prod.Lex.left _ _ (by omega)
  · have hp := nodeSize_pos c.node
    exact Prod.Lex.left _ _ (by omega)

/-- Step 2 of the loop body: the focused node has just been left; move
to its next sibling, or start popping (`popLoop`). -/
def stepLeave {σ : Type} (V : SVisitor σ) (s : σ) (c : TCursor) : σ :=
  match h : gotoNextSibling c with
  | some c' => walkLoop V s c'
  | none => popLoop V s c
termination_by (stackWeight c.stack, 2, c.stack.length)
decreasing_by
  · have hm := gotoNextSibling_measure h
    rw [(by omega :
      nodeSize c'.node + stackWeight c'.stack = stackWeight c.stack)]
    exact Prod.Lex.right _ (Prod.Lex.left _ _ (by omega))
  · exact Prod.Lex.right _ (Prod.Lex.left _ _ (by omega))

/-- Step 3 of the loop body: pop to the parent, leave it, and continue
with its next sibling, repeating until a sibling exists or the root is
popped. -/
def popLoop {σ : Type} (V : SVisitor σ) (s : σ) (c : TCursor) : σ :=
  match h : gotoParent c with
  | none => s
  | some cp =>
    let s₁ := V.onLeave s cp.node
    match h' : gotoNextSibling cp with
    | some c' => walkLoop V s₁ c'
    | none => popLoop V s₁ cp
termination_by (stackWeight c.stack, 1, c.stack.length)
decreasing_by
  · have hmp := gotoParent_measure h
    have hm := gotoNextSibling_measure h'
    rcases Nat.lt_or_ge (nodeSize c'.node + stackWeight c'.stack)
      (stackWeight c.stack) with hlt | hge
    · exact Prod.Lex.left _ _ hlt
    · rw [(by omega :
        nodeSize c'.node + stackWeight c'.stack = stackWeight c.stack)]
      exact Prod.Lex.right _ (Prod.Lex.left _ _ (by omega))
  · have hmp := gotoParent_measure h
    rcases Nat.lt_or_ge (stackWeight cp.stack) (stackWeight c.stack) with
      hlt | hge
    · exact Prod.Lex.left _ _ hlt
    · rw [(by omega : stackWeight cp.stack = stackWeight c.stack)]
      exact Prod.Lex.right _ (Prod.Lex.right _ (by omega))

end

/-- The work remaining after the focus node's subtree is fully handled:
for each frame, walk the pending right siblings recursively, then leave
the reassembled parent, and continue upward. -/
def unwindFrom {σ : Type} (V : SVisitor σ) (s : σ) (n : Node) :
    List Frame → σ
  | [] => s
  | f :: rest =>
    unwindFrom V (V.onLeave (walkRecL V s f.right) (reassemble f n))
      (reassemble f n) rest

/-- The cursor loop of `ASTVisitor.walk`, started at any cursor, behaves
as: recursively walk the focused subtree, then unwind the remaining
stack. -/
theorem walkLoop_eq_unwind {σ : Type} (V : SVisitor σ) (s : σ) (c : TCursor) :
    walkLoop V s c = unwindFrom V (walkRec V s c.node) c.node c.stack := by
  refine walkLoop.induct V
    (fun s c => walkLoop V s c = unwindFrom V (walkRec V s c.node) c.node c.stack)
    (fun s c => stepLeave V s c = unwindFrom V s c.node c.stack)
    (fun s c => gotoNextSibling c = none →
      popLoop V s c = unwindFrom V s c.node c.stack)
    ?_ ?_ ?_ ?_ ?_ ?_ ?_ ?_ s c
  · -- enter allows descent and a first child exists
    intro s c p hp c' hfc ih
    rcases c with ⟨⟨t, sp, ep, _ | ⟨c₀, cs⟩⟩, stack⟩
    · simp [gotoFirstChild] at hfc
    · simp only [gotoFirstChild, Option.some.injEq] at hfc
      subst hfc
      have hp' : (V.onVisit s (Node.mk t sp ep (c₀ :: cs))).2 = true := hp
      have ih' : walkLoop V (V.onVisit s (Node.mk t sp ep (c₀ :: cs))).1
          ⟨c₀, ⟨t, sp, ep, [], cs⟩ :: stack⟩ =
          unwindFrom V
            (walkRec V (V.onVisit s (Node.mk t sp ep (c₀ :: cs))).1 c₀)
            c₀ (⟨t, sp, ep, [], cs⟩ :: stack) := ih
      rw [walkLoop.eq_def]
      simp only [hp', eq_self_iff_true, if_true]
      split
      · rename_i c'' heq
        simp only [gotoFirstChild, Option.some.injEq] at heq
        subst heq
        rw [ih']
        rw [unwindFrom]
        simp only [reassemble, List.reverse_nil, List.nil_append]
        rw [walkRec]
        simp only [hp', eq_self_iff_true, if_true]
        rw [walkRecL]
      · rename_i heq
        simp [gotoFirstChild] at heq
  · -- enter allows descent but the node is a leaf
    intro s c p hp hfc ih
    rcases c with ⟨⟨t, sp, ep, cs⟩, stack⟩
    rcases cs with _ | ⟨c₀, cs⟩
    · have hp' : (V.onVisit s (Node.mk t sp ep [])).2 = true := hp
      have ih' :
          stepLeave V (V.onLeave (V.onVisit s (Node.mk t sp ep [])).1
              (Node.mk t sp ep []))
            ⟨Node.mk t sp ep [], stack⟩ =
          unwindFrom V (V.onLeave (V.onVisit s (Node.mk t sp ep [])).1
              (Node.mk t sp ep []))
            (Node.mk t sp ep []) stack := ih
      rw [walkLoop.eq_def]
      simp only [hp', eq_self_iff_true, if_true]
      split
      · rename_i c'' heq
        simp [gotoFirstChild] at heq
      · rw [ih']
        rw [walkRec]
        simp only [hp', eq_self_iff_true, if_true]
        rw [walkRecL]
    · simp [gotoFirstChild] at hfc
  · -- enter forbids descent
    intro s c p hp ih
    rcases c with ⟨⟨t, sp, ep, cs⟩, stack⟩
    have hp' : (V.onVisit s (Node.mk t sp ep cs)).2 = false := by
      have : ¬ (V.onVisit s (Node.mk t sp ep cs)).2 = true := hp
      simpa using this
    have ih' :
        stepLeave V (V.onLeave (V.onVisit s (Node.mk t sp ep cs)).1
            (Node.mk t sp ep cs))
          ⟨Node.mk t sp ep cs, stack⟩ =
        unwindFrom V (V.onLeave (V.onVisit s (Node.mk t sp ep cs)).1
            (Node.mk t sp ep cs))
          (Node.mk t sp ep cs) stack := ih
    rw [walkLoop.eq_def]
    simp only [hp', Bool.false_eq_true, if_false]
    rw [ih']
    rw [walkRec]
    simp only [hp', Bool.false_eq_true, if_false]
  · -- after leaving, a next sibling exists
    intro s c c' hns ih
    rcases c with ⟨n, _ | ⟨⟨pt, ps, pe, lrev, _ | ⟨r, rs⟩⟩, rest⟩⟩
    · simp [gotoNextSibling] at hns
    · simp [gotoNextSibling] at hns
    · simp only [gotoNextSibling, Option.some.injEq] at hns
      subst hns
      rw [stepLeave.eq_def]
      split
      · rename_i c'' heq
        simp only [gotoNextSibling, Option.some.injEq] at heq
        subst heq
        rw [ih]
        rw [unwindFrom, unwindFrom]
        simp only [reassemble, List.reverse_cons, List.append_assoc,
          List.singleton_append]
        rw [walkRecL]
      · rename_i heq
        simp [gotoNextSibling] at heq
  · -- after leaving, no sibling: fall into the pop loop
    intro s c hns ih
    rw [stepLeave.eq_def]
    split
    · rename_i c'' heq
      rw [heq] at hns
      cases hns
    · exact ih hns
  · -- pop loop at the root: the walk ends
    intro s c hgp _
    rcases c with ⟨n, _ | ⟨f, rest⟩⟩
    · rw [popLoop.eq_def]
      split
      · rw [unwindFrom]
      · rename_i cp heq
        simp [gotoParent] at heq
    · simp [gotoParent] at hgp
  · -- pop to the parent, which has a next sibling
    intro s c cp hgp s₁ c' hns ih hcns
    rcases c with ⟨n, _ | ⟨⟨pt, ps, pe, lrev, fright⟩, rest⟩⟩
    · simp [gotoParent] at hgp
    · have hfr : fright = [] := by
        rcases fright with _ | ⟨r, rs⟩
        · rfl
        · simp [gotoNextSibling] at hcns
      subst hfr
      simp only [gotoParent, reassemble, Option.some.injEq] at hgp
      subst hgp
      rcases rest with _ | ⟨⟨gt, gs, ge, glrev, _ | ⟨r, rs⟩⟩, rrest⟩
      · simp [gotoNextSibling] at hns
      · simp [gotoNextSibling] at hns
      · simp only [gotoNextSibling, Option.some.injEq] at hns
        subst hns
        rw [popLoop.eq_def]
        split
        · rename_i heq
          simp [gotoParent] at heq
        · rename_i cp' heq
          simp only [gotoParent, reassemble, Option.some.injEq] at heq
          subst heq
          split
          · rename_i c'' heq'
            simp only [gotoNextSibling, Option.some.injEq] at heq'
            subst heq'
            rw [ih]
            rw [unwindFrom, unwindFrom, unwindFrom]
            simp only [reassemble, walkRecL, List.reverse_nil, List.nil_append,
              List.reverse_cons, List.append_assoc, List.singleton_append]
          · rename_i heq'
            simp [gotoNextSibling] at heq'
  · -- pop to the parent, which has no sibling either: keep popping
    intro s c cp hgp s₁ hns ih hcns
    rcases c with ⟨n, _ | ⟨⟨pt, ps, pe, lrev, fright⟩, rest⟩⟩
    · simp [gotoParent] at hgp
    · have hfr : fright = [] := by
        rcases fright with _ | ⟨r, rs⟩
        · rfl
        · simp [gotoNextSibling] at hcns
      subst hfr
      simp only [gotoParent, reassemble, Option.some.injEq] at hgp
      subst hgp
      rw [popLoop.eq_def]
      split
      · rename_i heq
        simp [gotoParent] at heq
      · rename_i cp' heq
        simp only [gotoParent, reassemble, Option.some.injEq] at heq
        subst heq
        split
        · rename_i c'' heq'
          rw [heq'] at hns
          cases hns
        · rw [ih hns]
          rw [unwindFrom]
          simp only [reassemble, walkRecL]

/-- A dispatch event the engine delivers to a visitor: an enter
(`on_visit`) or a leave (`on_leave`) of a node. -/
inductive Ev : Type where
  | enter (n : Node)
  | leave (n : Node)
deriving DecidableEq

/-- Instrument a visitor so that its state also records, in order, every
enter/leave event the engine delivers to it. -/
def logged {σ : Type} (V : SVisitor σ) : SVisitor (σ × List Ev) where
  onVisit := fun sl n =>
    let p := V.onVisit sl.1 n
    ((p.1, sl.2 ++ [Ev.enter n]), p.2)
  onLeave := fun sl n => (V.onLeave sl.1 n, sl.2 ++ [Ev.leave n])

theorem logged_onVisit {σ : Type} (V : SVisitor σ) (w : σ × List Ev)
    (n : Node) :
    (logged V).onVisit w n =
      (((V.onVisit w.1 n).1, w.2 ++ [Ev.enter n]), (V.onVisit w.1 n).2) := rfl

theorem logged_onLeave {σ : Type} (V : SVisitor σ) (w : σ × List Ev)
    (n : Node) :
    (logged V).onLeave w n =
      (V.onLeave w.1 n, w.2 ++ [Ev.leave n]) := rfl

mutual

/-- The log accumulated by an instrumented walk is independent of the
log it starts from: the walk only appends. -/
theorem walkRec_logShift {σ : Type} (V : SVisitor σ) :
    ∀ (n : Node) (s : σ) (log : List Ev),
    walkRec (logged V) (s, log) n =
      ((walkRec (logged V) (s, []) n).1,
        log ++ (walkRec (logged V) (s, []) n).2)
  | .mk t sp ep cs, s, log => by
    rw [walkRec, walkRec]
    simp only [logged_onVisit, logged_onLeave]
    rcases hB : (V.onVisit s (Node.mk t sp ep cs)).2 with _ | _
    · simp only [hB, Bool.false_eq_true, if_false, logged_onLeave]
      simp
    · simp only [hB, if_true, List.nil_append]
      rw [walkRecL_logShift V cs ((V.onVisit s (Node.mk t sp ep cs)).1)
        (log ++ [Ev.enter (Node.mk t sp ep cs)])]
      rw [walkRecL_logShift V cs ((V.onVisit s (Node.mk t sp ep cs)).1)
        ([Ev.enter (Node.mk t sp ep cs)])]
      simp only [logged_onLeave]
      simp [List.append_assoc]

/-- `walkRec_logShift` for a forest. -/
theorem walkRecL_logShift {σ : Type} (V : SVisitor σ) :
    ∀ (cs : List Node) (s : σ) (log : List Ev),
    walkRecL (logged V) (s, log) cs =
      ((walkRecL (logged V) (s, []) cs).1,
        log ++ (walkRecL (logged V) (s, []) cs).2)
  | [], s, log => by
    rw [walkRecL, walkRecL]
    simp
  | c :: cs, s, log => by
    rw [walkRecL, walkRecL]
    rw [walkRec_logShift V c s log]
    rw [walkRecL_logShift V cs ((walkRec (logged V) (s, []) c).1)
      (log ++ (walkRec (logged V) (s, []) c).2)]
    rw [walkRec_logShift V c s []]
    rw [walkRecL_logShift V cs ((walkRec (logged V) (s, []) c).1)
      ([] ++ (walkRec (logged V) (s, []) c).2)]
    simp [List.append_assoc]

end

/-- C3: the event discipline of `ASTVisitor.walk`.  Run from the root
with an empty log, (1) the cursor loop delivers exactly the events of
the recursive reference traversal; (2) those events bracket every node:
its enter comes first, then — only when the enter result allows
descent — the children's events, then exactly one leave of the node,
delivered whether or not descent occurred; (3) a forest's events are the
first tree's events followed by the remaining trees' events, so a node
is left before its next sibling is entered. -/
theorem walk_enter_leave_discipline {σ : Type} (V : SVisitor σ) (s : σ)
    (n : Node) :
    walkLoop (logged V) (s, []) ⟨n, []⟩ = walkRec (logged V) (s, []) n ∧
    (walkRec (logged V) (s, []) n).2 =
      Ev.enter n ::
        ((if (V.onVisit s n).2 then
            (walkRecL (logged V) ((V.onVisit s n).1, []) n.children).2
          else []) ++ [Ev.leave n]) ∧
    (∀ (c : Node) (cs : List Node) (s' : σ),
      (walkRecL (logged V) ((s', []) : σ × List Ev) (c :: cs)).2 =
        (walkRec (logged V) (s', []) c).2 ++
          (walkRecL (logged V) ((walkRec (logged V) (s', []) c).1, []) cs).2) := by
  refine ⟨?_, ?_, ?_⟩
  · rw [walkLoop_eq_unwind]
    rw [unwindFrom]
  · rcases n with ⟨t, sp, ep, cs⟩
    rw [walkRec]
    simp only [logged_onVisit, logged_onLeave, Node.children]
    rcases hB : (V.onVisit s (Node.mk t sp ep cs)).2 with _ | _
    · simp only [hB, Bool.false_eq_true, if_false, logged_onLeave]
      simp
    · simp only [hB, if_true, List.nil_append]
      rw [walkRecL_logShift V cs ((V.onVisit s (Node.mk t sp ep cs)).1)
        ([Ev.enter (Node.mk t sp ep cs)])]
      simp only [logged_onLeave]
      simp
  · intro c cs s'
    rw [walkRecL]
    rw [walkRec_logShift V c s' []]
    rw [walkRecL_logShift V cs ((walkRec (logged V) (s', []) c).1)
      ([] ++ (walkRec (logged V) (s', []) c).2)]

/-! ## `visitor.ResumingVisitorComposition`

The composition keeps, per component visitor, an active flag and (when
inactive) the node whose leave event reactivates it
(`__active_visitors` / `__resume_on`).  A slot bundles the component's
own state, the log of events delivered to it, and that resume
information: `none` is active, `some r` is inactive-until-`leave(r)`.
The flag and the dict entry are always written together in the source,
so the `Option` carries exactly the reachable states. -/

/-- Composition bookkeeping for one component visitor. -/
abbrev Slot (σ : Type) := σ × List Ev × Option Node

mutual

/-- All nodes of a tree (the tree-sitter nodes a walk can deliver). -/
def nodesOf : Node → List Node
  | .mk t sp ep cs => .mk t sp ep cs :: nodesOfL cs

/-- All nodes of a forest. -/
def nodesOfL : List Node → List Node
  | [] => []
  | c :: cs => nodesOf c ++ nodesOfL cs

end

mutual

theorem nodeSize_of_mem : ∀ {m n : Node}, m ∈ nodesOf n → nodeSize m ≤ nodeSize n
  | m, .mk t sp ep cs, h => by
    rw [nodesOf] at h
    rcases List.mem_cons.mp h with h | h
    · rw [h]
    · have := nodeSizeL_of_mem h
      rw [nodeSize]
      omega

theorem nodeSizeL_of_mem : ∀ {m : Node} {cs : List Node},
    m ∈ nodesOfL cs → nodeSize m ≤ nodeSizeL cs
  | m, c :: cs, h => by
    rw [nodesOfL] at h
    rcases List.mem_append.mp h with h | h
    · have := nodeSize_of_mem h
      rw [nodeSizeL]
      omega
    · have := nodeSizeL_of_mem h
      rw [nodeSizeL]
      omega

end

/-- A tree is not one of its own strict subtrees. -/
theorem not_mem_nodesOfL_children (t : String) (sp ep : Pos) (cs : List Node) :
    Node.mk t sp ep cs ∉ nodesOfL cs := by
  intro h
  have h₁ := nodeSizeL_of_mem h
  rw [nodeSize] at h₁
  omega

/-- `ResumingVisitorComposition.on_visit`'s loop over the component
visitors: active components get the enter event and are deactivated when
they decline (recording the current node to resume on); inactive
components are skipped. -/
def rvcVisitSlots {σ : Type} (n : Node) :
    List (SVisitor σ) → List (Slot σ) → List (Slot σ)
  | V :: Vs, (s, log, resume) :: slots =>
    (match resume with
     | some r => (s, log, some r)
     | none =>
       let p := V.onVisit s n
       if p.2 then (p.1, log ++ [Ev.enter n], none)
       else (p.1, log ++ [Ev.enter n], some n)) :: rvcVisitSlots n Vs slots
  | _, _ => []

/-- `ResumingVisitorComposition.on_leave`'s loop: an inactive component
is reactivated (and receives the leave event) exactly when the leave is
for its recorded resume node — compared with Python `==`, i.e. node
equality; active components receive the leave event directly. -/
def rvcLeaveSlots {σ : Type} (n : Node) :
    List (SVisitor σ) → List (Slot σ) → List (Slot σ)
  | V :: Vs, (s, log, resume) :: slots =>
    (match resume with
     | some r =>
       if r = n then (V.onLeave s n, log ++ [Ev.leave n], none)
       else (s, log, some r)
     | none => (V.onLeave s n, log ++ [Ev.leave n], none)) ::
      rvcLeaveSlots n Vs slots
  | _, _ => []

/-- `ResumingVisitorComposition` as the visitor the engine drives:
`on_visit` updates every slot and reports `any(active)`; `on_leave`
updates every slot. -/
def rvc {σ : Type} (Vs : List (SVisitor σ)) : SVisitor (List (Slot σ)) where
  onVisit := fun slots n =>
    let slots' := rvcVisitSlots n Vs slots
    (slots', slots'.any (fun sl => sl.2.2.isNone))
  onLeave := fun slots n => rvcLeaveSlots n Vs slots

/-- What one composition slot must amount to after the subtree at `n`
is fully traversed: an active component advances exactly as its own
instrumented solo walk of `n`; an inactive component is untouched. -/
def rvcAdvance {σ : Type} (n : Node) (V : SVisitor σ) : Slot σ → Slot σ
  | (s, log, some r) => (s, log, some r)
  | (s, log, none) =>
    let w := walkRec (logged V) (s, log) n
    (w.1, w.2, none)

/-- `rvcAdvance` over a whole forest. -/
def rvcAdvanceF {σ : Type} (cs : List Node) (V : SVisitor σ) : Slot σ → Slot σ
  | (s, log, some r) => (s, log, some r)
  | (s, log, none) =>
    let w := walkRecL (logged V) (s, log) cs
    (w.1, w.2, none)

/-- `rvcAdvance` applied slotwise. -/
def rvcAdvanceAll {σ : Type} (n : Node) :
    List (SVisitor σ) → List (Slot σ) → List (Slot σ)
  | V :: Vs, sl :: slots => rvcAdvance n V sl :: rvcAdvanceAll n Vs slots
  | _, _ => []

/-- `rvcAdvanceF` applied slotwise. -/
def rvcAdvanceAllF {σ : Type} (cs : List Node) :
    List (SVisitor σ) → List (Slot σ) → List (Slot σ)
  | V :: Vs, sl :: slots => rvcAdvanceF cs V sl :: rvcAdvanceAllF cs Vs slots
  | _, _ => []

theorem rvcVisitSlots_length {σ : Type} (n : Node) :
    ∀ (Vs : List (SVisitor σ)) (slots : List (Slot σ)),
    slots.length ≤ Vs.length →
    (rvcVisitSlots n Vs slots).length = slots.length
  | [], [], _ => by rw [rvcVisitSlots.eq_def]
  | [], sl :: slots, h => by simp at h
  | V :: Vs, [], _ => by rw [rvcVisitSlots.eq_def]
  | V :: Vs, ⟨s, log, some r₀⟩ :: slots, h => by
    rw [rvcVisitSlots]
    simp only [List.length_cons]
    rw [rvcVisitSlots_length n Vs slots (by simpa using h)]
  | V :: Vs, ⟨s, log, none⟩ :: slots, h => by
    rw [rvcVisitSlots]
    simp only [List.length_cons]
    rw [rvcVisitSlots_length n Vs slots (by simpa using h)]

theorem rvcVisitSlots_inactive {σ : Type} (n : Node) :
    ∀ (Vs : List (SVisitor σ)) (slots : List (Slot σ)) (sl' : Slot σ)
      (r : Node),
    sl' ∈ rvcVisitSlots n Vs slots → sl'.2.2 = some r →
    r = n ∨ ∃ sl ∈ slots, sl.2.2 = some r
  | [], slots, sl', r, hmem, hr => by
    rw [rvcVisitSlots.eq_def] at hmem
    simp at hmem
  | V :: Vs, [], sl', r, hmem, hr => by
    rw [rvcVisitSlots.eq_def] at hmem
    simp at hmem
  | V :: Vs, ⟨s, log, some r₀⟩ :: slots, sl', r, hmem, hr => by
    rw [rvcVisitSlots] at hmem
    rcases List.mem_cons.mp hmem with hmem | hmem
    · subst hmem
      cases hr
      exact Or.inr ⟨⟨s, log, some r₀⟩, List.mem_cons_self _ _, rfl⟩
    · rcases rvcVisitSlots_inactive n Vs slots sl' r hmem hr with h | ⟨sl, hsl, hsl'⟩
      · exact Or.inl h
      · exact Or.inr ⟨sl, List.mem_cons_of_mem _ hsl, hsl'⟩
  | V :: Vs, ⟨s, log, none⟩ :: slots, sl', r, hmem, hr => by
    rw [rvcVisitSlots] at hmem
    rcases List.mem_cons.mp hmem with hmem | hmem
    · by_cases hp : (V.onVisit s n).2 = true
      · subst hmem
        simp only [hp, if_true] at hr
        cases hr
      · subst hmem
        simp only [hp, if_false] at hr
        cases hr
        exact Or.inl rfl
    · rcases rvcVisitSlots_inactive n Vs slots sl' r hmem hr with h | ⟨sl, hsl, hsl'⟩
      · exact Or.inl h
      · exact Or.inr ⟨sl, List.mem_cons_of_mem _ hsl, hsl'⟩

theorem rvcAdvanceAll_length {σ : Type} (n : Node) :
    ∀ (Vs : List (SVisitor σ)) (slots : List (Slot σ)),
    slots.length ≤ Vs.length →
    (rvcAdvanceAll n Vs slots).length = slots.length
  | [], [], _ => by rw [rvcAdvanceAll.eq_def]
  | [], sl :: slots, h => by simp at h
  | V :: Vs, [], _ => by rw [rvcAdvanceAll.eq_def]
  | V :: Vs, sl :: slots, h => by
    rw [rvcAdvanceAll]
    simp only [List.length_cons]
    rw [rvcAdvanceAll_length n Vs slots (by simpa using h)]

theorem rvcAdvanceAll_inactive {σ : Type} (n : Node) :
    ∀ (Vs : List (SVisitor σ)) (slots : List (Slot σ)) (sl' : Slot σ)
      (r : Node),
    sl' ∈ rvcAdvanceAll n Vs slots → sl'.2.2 = some r →
    ∃ sl ∈ slots, sl.2.2 = some r
  | [], slots, sl', r, hmem, hr => by
    rw [rvcAdvanceAll.eq_def] at hmem
    simp at hmem
  | V :: Vs, [], sl', r, hmem, hr => by
    rw [rvcAdvanceAll.eq_def] at hmem
    simp at hmem
  | V :: Vs, ⟨s, log, some r₀⟩ :: slots, sl', r, hmem, hr => by
    rw [rvcAdvanceAll] at hmem
    rcases List.mem_cons.mp hmem with hmem | hmem
    · subst hmem
      rw [rvcAdvance] at hr
      cases hr
      exact ⟨⟨s, log, some r₀⟩, List.mem_cons_self _ _, rfl⟩
    · rcases rvcAdvanceAll_inactive n Vs slots sl' r hmem hr with ⟨sl₀, hsl, hsl'⟩
      exact ⟨sl₀, List.mem_cons_of_mem _ hsl, hsl'⟩
  | V :: Vs, ⟨s, log, none⟩ :: slots, sl', r, hmem, hr => by
    rw [rvcAdvanceAll] at hmem
    rcases List.mem_cons.mp hmem with hmem | hmem
    · subst hmem
      rw [rvcAdvance] at hr
      simp at hr
    · rcases rvcAdvanceAll_inactive n Vs slots sl' r hmem hr with ⟨sl₀, hsl, hsl'⟩
      exact ⟨sl₀, List.mem_cons_of_mem _ hsl, hsl'⟩

theorem rvcAdvanceAllF_nil {σ : Type} :
    ∀ (Vs : List (SVisitor σ)) (slots : List (Slot σ)),
    slots.length ≤ Vs.length → rvcAdvanceAllF [] Vs slots = slots
  | [], [], _ => by rw [rvcAdvanceAllF.eq_def]
  | [], sl :: slots, h => by simp at h
  | V :: Vs, [], _ => by rw [rvcAdvanceAllF.eq_def]
  | V :: Vs, ⟨s, log, some r₀⟩ :: slots, h => by
    rw [rvcAdvanceAllF]
    rw [rvcAdvanceAllF_nil Vs slots (by simpa using h)]
    rw [rvcAdvanceF]
  | V :: Vs, ⟨s, log, none⟩ :: slots, h => by
    rw [rvcAdvanceAllF]
    rw [rvcAdvanceAllF_nil Vs slots (by simpa using h)]
    rw [rvcAdvanceF]
    rw [walkRecL]

theorem rvcAdvanceAllF_inactive_id {σ : Type} (cs : List Node) :
    ∀ (Vs : List (SVisitor σ)) (slots : List (Slot σ)),
    slots.length ≤ Vs.length →
    (∀ sl ∈ slots, sl.2.2.isSome = true) →
    rvcAdvanceAllF cs Vs slots = slots
  | [], [], _, _ => by rw [rvcAdvanceAllF.eq_def]
  | [], sl :: slots, h, _ => by simp at h
  | V :: Vs, [], _, _ => by rw [rvcAdvanceAllF.eq_def]
  | V :: Vs, ⟨s, log, some r₀⟩ :: slots, h, hin => by
    rw [rvcAdvanceAllF]
    rw [rvcAdvanceAllF_inactive_id cs Vs slots (by simpa using h)
      (fun sl hsl => hin sl (List.mem_cons_of_mem _ hsl))]
    rw [rvcAdvanceF]
  | V :: Vs, ⟨s, log, none⟩ :: slots, h, hin => by
    have hfalse := hin ⟨s, log, none⟩ (List.mem_cons_self _ _)
    exact Bool.noConfusion hfalse

theorem rvcAdvanceAllF_cons {σ : Type} (c : Node) (cs : List Node) :
    ∀ (Vs : List (SVisitor σ)) (slots : List (Slot σ)),
    rvcAdvanceAllF cs Vs (rvcAdvanceAll c Vs slots) =
      rvcAdvanceAllF (c :: cs) Vs slots
  | [], slots => by
    rw [rvcAdvanceAll.eq_def, rvcAdvanceAllF.eq_def, rvcAdvanceAllF.eq_def]
  | V :: Vs, [] => by
    rw [rvcAdvanceAll.eq_def, rvcAdvanceAllF.eq_def, rvcAdvanceAllF.eq_def]
  | V :: Vs, ⟨s, log, some r₀⟩ :: slots => by
    rw [rvcAdvanceAll, rvcAdvance, rvcAdvanceAllF, rvcAdvanceAllF]
    rw [rvcAdvanceAllF_cons c cs Vs slots]
    rw [rvcAdvanceF, rvcAdvanceF]
  | V :: Vs, ⟨s, log, none⟩ :: slots => by
    rw [rvcAdvanceAll, rvcAdvance, rvcAdvanceAllF, rvcAdvanceAllF]
    rw [rvcAdvanceAllF_cons c cs Vs slots]
    rw [rvcAdvanceF, rvcAdvanceF]
    rw [walkRecL]

/-- Slotwise action of one full node visit under the composition:
enter every slot, advance every slot across the children, and leave
every slot — provided no inactive slot resumes on this very node, the
result is the per-slot advance. -/
theorem rvc_node_pointwise {σ : Type} (t : String) (sp ep : Pos)
    (cs : List Node) :
    ∀ (Vs : List (SVisitor σ)) (slots : List (Slot σ)),
    (∀ sl ∈ slots, ∀ r, sl.2.2 = some r → r ≠ Node.mk t sp ep cs) →
    rvcLeaveSlots (Node.mk t sp ep cs) Vs
      (rvcAdvanceAllF cs Vs
        (rvcVisitSlots (Node.mk t sp ep cs) Vs slots)) =
    rvcAdvanceAll (Node.mk t sp ep cs) Vs slots
  | [], slots, hin => by
    rw [rvcVisitSlots.eq_def, rvcAdvanceAllF.eq_def, rvcLeaveSlots.eq_def,
      rvcAdvanceAll.eq_def]
  | V :: Vs, [], hin => by
    rw [rvcVisitSlots.eq_def, rvcAdvanceAllF.eq_def, rvcLeaveSlots.eq_def,
      rvcAdvanceAll.eq_def]
  | V :: Vs, ⟨s, log, some r₀⟩ :: slots, hin => by
    have tail := rvc_node_pointwise t sp ep cs Vs slots
      (fun sl hsl => hin sl (List.mem_cons_of_mem _ hsl))
    have hne : r₀ ≠ Node.mk t sp ep cs :=
      hin ⟨s, log, some r₀⟩ (List.mem_cons_self _ _) r₀ rfl
    rw [rvcVisitSlots, rvcAdvanceAllF, rvcAdvanceF, rvcLeaveSlots,
      rvcAdvanceAll, rvcAdvance]
    rw [tail]
    simp only [if_neg hne]
  | V :: Vs, ⟨s, log, none⟩ :: slots, hin => by
    have tail := rvc_node_pointwise t sp ep cs Vs slots
      (fun sl hsl => hin sl (List.mem_cons_of_mem _ hsl))
    rw [rvcVisitSlots]
    rcases hp : (V.onVisit s (Node.mk t sp ep cs)).2 with _ | _
    · simp only [hp, Bool.false_eq_true, if_false]
      rw [rvcAdvanceAllF, rvcAdvanceF, rvcLeaveSlots, rvcAdvanceAll,
        rvcAdvance]
      rw [tail]
      rw [walkRec]
      simp only [logged_onVisit, logged_onLeave, hp, Bool.false_eq_true,
        if_false, List.append_assoc]
      simp
    · simp only [hp, if_true]
      rw [rvcAdvanceAllF, rvcAdvanceF, rvcLeaveSlots, rvcAdvanceAll,
        rvcAdvance]
      rw [tail]
      rw [walkRec]
      simp only [logged_onVisit, logged_onLeave, hp, if_true]

theorem rvc_onVisit {σ : Type} (Vs : List (SVisitor σ)) (slots : List (Slot σ))
    (n : Node) :
    (rvc Vs).onVisit slots n =
      (rvcVisitSlots n Vs slots,
        (rvcVisitSlots n Vs slots).any (fun sl => sl.2.2.isNone)) := rfl

theorem rvc_onLeave {σ : Type} (Vs : List (SVisitor σ)) (slots : List (Slot σ))
    (n : Node) :
    (rvc Vs).onLeave slots n = rvcLeaveSlots n Vs slots := rfl

mutual

/-- Walking a tree with the resuming composition advances every slot
independently: active components advance by their own solo walk,
inactive components (waiting for an ancestor's leave) are untouched. -/
theorem rvc_walk_node {σ : Type} (Vs : List (SVisitor σ)) :
    ∀ (n : Node) (slots : List (Slot σ)),
    slots.length ≤ Vs.length →
    (∀ sl ∈ slots, ∀ r, sl.2.2 = some r → r ∉ nodesOf n) →
    walkRec (rvc Vs) slots n = rvcAdvanceAll n Vs slots
  | .mk t sp ep cs, slots, hlen, hin => by
    have hmem_self : Node.mk t sp ep cs ∈ nodesOf (Node.mk t sp ep cs) := by
      rw [nodesOf]
      exact List.mem_cons_self _ _
    have hin' : ∀ sl ∈ slots, ∀ r, sl.2.2 = some r →
        r ≠ Node.mk t sp ep cs := by
      intro sl hsl r hr heq
      subst heq
      exact hin sl hsl _ hr hmem_self
    have hlen₁ : (rvcVisitSlots (Node.mk t sp ep cs) Vs slots).length ≤
        Vs.length := by
      rw [rvcVisitSlots_length _ Vs slots hlen]
      exact hlen
    rw [walkRec]
    simp only [rvc_onVisit, rvc_onLeave]
    rcases hb : (rvcVisitSlots (Node.mk t sp ep cs) Vs slots).any
        (fun sl => sl.2.2.isNone) with _ | _
    · simp only [hb, Bool.false_eq_true, if_false]
      have hall : ∀ sl ∈ rvcVisitSlots (Node.mk t sp ep cs) Vs slots,
          sl.2.2.isSome = true := by
        intro sl hsl
        have := List.any_eq_false.mp hb sl hsl
        rcases hres : sl.2.2 with _ | r₀
        · rw [hres] at this
          simp at this
        · rfl
      rw [← rvcAdvanceAllF_inactive_id cs Vs
        (rvcVisitSlots (Node.mk t sp ep cs) Vs slots) hlen₁ hall]
      exact rvc_node_pointwise t sp ep cs Vs slots hin'
    · simp only [hb, if_true]
      have hinf : ∀ sl' ∈ rvcVisitSlots (Node.mk t sp ep cs) Vs slots,
          ∀ r, sl'.2.2 = some r → r ∉ nodesOfL cs := by
        intro sl' hsl' r hr
        rcases rvcVisitSlots_inactive (Node.mk t sp ep cs) Vs slots sl' r hsl' hr
          with h | ⟨sl, hsl, hsl₂⟩
        · exact h ▸ not_mem_nodesOfL_children t sp ep cs
        · intro hm
          exact hin sl hsl r hsl₂ (by rw [nodesOf]; exact List.mem_cons_of_mem _ hm)
      rw [rvc_walk_forest Vs cs (rvcVisitSlots (Node.mk t sp ep cs) Vs slots)
        hlen₁ hinf]
      exact rvc_node_pointwise t sp ep cs Vs slots hin'

/-- `rvc_walk_node` across a forest. -/
theorem rvc_walk_forest {σ : Type} (Vs : List (SVisitor σ)) :
    ∀ (cs : List Node) (slots : List (Slot σ)),
    slots.length ≤ Vs.length →
    (∀ sl ∈ slots, ∀ r, sl.2.2 = some r → r ∉ nodesOfL cs) →
    walkRecL (rvc Vs) slots cs = rvcAdvanceAllF cs Vs slots
  | [], slots, hlen, _ => by
    rw [walkRecL]
    exact (rvcAdvanceAllF_nil Vs slots hlen).symm
  | c :: cs, slots, hlen, hin => by
    rw [walkRecL]
    rw [rvc_walk_node Vs c slots hlen (fun sl hsl r hr hm =>
      hin sl hsl r hr (by rw [nodesOfL]; exact List.mem_append_left _ hm))]
    rw [rvc_walk_forest Vs cs (rvcAdvanceAll c Vs slots)
      (by rw [rvcAdvanceAll_length c Vs slots hlen]; exact hlen)
      (by
        intro sl' hsl' r hr
        rcases rvcAdvanceAll_inactive c Vs slots sl' r hsl' hr with
          ⟨sl, hsl, hsl₂⟩
        intro hm
        exact hin sl hsl r hsl₂ (by rw [nodesOfL]; exact List.mem_append_right _ hm))]
    exact rvcAdvanceAllF_cons c cs Vs slots

end

/-- The composition's initial per-component slots: given states, empty
logs, everything active. -/
def startSlots {σ : Type} (inits : List σ) : List (Slot σ) :=
  inits.map (fun s => (s, [], none))

/-- What running each component visitor alone over the whole tree (with
the engine's cursor loop) produces: final state, delivered events, and
an active flag. -/
def soloSlots {σ : Type} (n : Node) :
    List (SVisitor σ) → List σ → List (Slot σ)
  | V :: Vs, s :: ss =>
    (let w := walkLoop (logged V) (s, []) ⟨n, []⟩
     (w.1, w.2, none)) :: soloSlots n Vs ss
  | _, _ => []

theorem rvcAdvanceAll_startSlots {σ : Type} (n : Node) :
    ∀ (Vs : List (SVisitor σ)) (inits : List σ),
    rvcAdvanceAll n Vs (startSlots inits) = soloSlots n Vs inits
  | [], inits => by
    rw [rvcAdvanceAll.eq_def, soloSlots.eq_def]
  | V :: Vs, [] => rfl
  | V :: Vs, s :: ss => by
    have : startSlots (s :: ss) = (s, ([], none)) :: startSlots ss := rfl
    rw [this, rvcAdvanceAll, soloSlots, rvcAdvance]
    rw [rvcAdvanceAll_startSlots n Vs ss]
    rw [walkLoop_eq_unwind, unwindFrom]

/-- C5: running component visitors under the resuming composition is
behaviourally the same as running each visitor alone over the whole
tree: after the engine's walk of the composition, every component's
state, its sequence of delivered enter/leave events, and its
reactivated status are exactly those of its own solo walk. -/
theorem resuming_composition_isolates_visitors {σ : Type}
    (Vs : List (SVisitor σ)) (inits : List σ) (n : Node)
    (hlen : inits.length ≤ Vs.length) :
    walkLoop (rvc Vs) (startSlots inits) ⟨n, []⟩ = soloSlots n Vs inits := by
  rw [walkLoop_eq_unwind, unwindFrom]
  rw [rvc_walk_node Vs n (startSlots inits)
    (by simpa [startSlots] using hlen)
    (by
      intro sl hsl r hr
      rcases List.mem_map.mp hsl with ⟨s, _, hs⟩
      rw [← hs] at hr
      cases hr)]
  exact rvcAdvanceAll_startSlots n Vs inits

/-- A small concrete visitor for exercising the composition: counts
enters, refuses to descend into nodes typed `"skip"`. -/
def exVisitor : SVisitor Nat where
  onVisit := fun s n => (s + 1, decide (n.type ≠ "skip"))
  onLeave := fun s _ => s

/-- A small concrete tree with a skippable subtree. -/
def exTree : Node :=
  .mk "module" (0, 0) (1, 3)
    [.mk "skip" (0, 0) (0, 5) [.mk "identifier" (0, 0) (0, 5) []],
     .mk "identifier" (1, 0) (1, 3) []]

theorem resuming_composition_isolates_visitors_witness :
    ([0, 5].length ≤ [exVisitor, exVisitor].length) ∧
    walkLoop (rvc [exVisitor, exVisitor]) (startSlots [0, 5]) ⟨exTree, []⟩ =
      soloSlots exTree [exVisitor, exVisitor] [0, 5] :=
  ⟨by decide,
    resuming_composition_isolates_visitors [exVisitor, exVisitor] [0, 5]
      exTree (by decide)⟩

/-! ## The edit model: `transformer.EditUpdate` and `transformer.EditTree`

`EditUpdate`'s variants: `SubtreeUpdate` (descend), `TextUpdate`
(literal text), `NodeUpdate` (another node's original text),
`TreeUpdate` (another node's synthesized edit, if present among the
sub-edits), `FormattedUpdate` (printf-style composition).  The base
class `EditUpdate.compile` returns `""`, which `SubtreeUpdate`
inherits. -/

/-- The `EditUpdate` variant hierarchy of `transformer.py`. -/
inductive EditUpdate : Type where
  | subtree
  | text (t : Line)
  | node (n : Node)
  | tree (n : Node)
  | formatted (fmt : Line) (args : List EditUpdate)

/-- The edit tree mirroring the syntax tree: a back-reference to the
source node, an optional transformation intent, and child edit trees. -/
inductive EditTree : Type where
  | mk : Node → Option EditUpdate → List EditTree → EditTree

/-- `edit_tree.source_node`. -/
def EditTree.sourceNode : EditTree → Node
  | .mk n _ _ => n

/-- `edit_tree.target_edit`. -/
def EditTree.targetEdit : EditTree → Option EditUpdate
  | .mk _ u _ => u

/-- `edit_tree.children`. -/
def EditTree.children : EditTree → List EditTree
  | .mk _ _ cs => cs

/-- Python `%`-formatting restricted to the `%s` and `%%` directives the
transformer uses: substitute arguments positionally; a count mismatch
("not all arguments converted" / "not enough arguments") or any other
directive is an error. -/
def pyFormat : Line → List Line → Option Line
  | [], [] => some []
  | [], _ :: _ => none
  | '%' :: 's' :: rest, a :: args => (pyFormat rest args).map (a ++ ·)
  | '%' :: 's' :: _, [] => none
  | '%' :: '%' :: rest, args => (pyFormat rest args).map ('%' :: ·)
  | '%' :: _, _ => none
  | c :: rest, args => (pyFormat rest args).map (c :: ·)

mutual

/-- Structural weight of an edit operation (termination measure). -/
def euWeight : EditUpdate → Nat
  | .subtree => 1
  | .text _ => 1
  | .node _ => 1
  | .tree _ => 1
  | .formatted _ args => 2 + euWeightL args

/-- `euWeight` summed over a list. -/
def euWeightL : List EditUpdate → Nat
  | [] => 0
  | u :: us => euWeight u + euWeightL us

end

mutual

/-- Structural weight of an edit tree (termination measure). -/
def etWeight : EditTree → Nat
  | .mk _ _ cs => 1 + etWeightL cs

/-- `etWeight` summed over a list. -/
def etWeightL : List EditTree → Nat
  | [] => 0
  | t :: ts => etWeight t + etWeightL ts

end

theorem euWeight_pos (u : EditUpdate) : 1 ≤ euWeight u := by
  rcases u with _ | t | n | n | ⟨fmt, args⟩ <;> rw [euWeight] <;> omega

theorem etWeight_pos (t : EditTree) : 1 ≤ etWeight t := by
  rcases t with ⟨n, tgt, cs⟩
  rw [etWeight]
  omega

theorem etWeightL_append (ts us : List EditTree) :
    etWeightL (ts ++ us) = etWeightL ts + etWeightL us := by
  induction ts with
  | nil =>
    rw [etWeightL, List.nil_append]
    omega
  | cons t ts ih =>
    rw [List.cons_append, etWeightL, etWeightL, ih]
    omega

mutual

/-- `EditUpdate.compile(sub_edits, code_lines)`, dispatched over the
variant: `SubtreeUpdate` inherits the base's `""`; `TextUpdate` is its
text; `NodeUpdate` greps the referenced node's original text;
`TreeUpdate` searches the sub-edits for the referenced node's own edit;
`FormattedUpdate` compiles its arguments and substitutes them. -/
def compileUpdate : EditUpdate → List EditTree → List Line → Option Line
  | .subtree, _, _ => some []
  | .text t, _, _ => some t
  | .node n, _, sourceLines => matchSpan n sourceLines
  | .tree n, subEdits, sourceLines => treeRefCompile n subEdits sourceLines
  | .formatted fmt args, subEdits, sourceLines =>
    match compileArgs args subEdits sourceLines with
    | none => none
    | some ts => pyFormat fmt ts
termination_by u subs _ => (etWeightL subs, euWeight u)
decreasing_by
  all_goals
    first
      | decreasing_tactic
      | (simp only [euWeight, euWeightL, etWeight, etWeightL]; omega)
      | exact Prod.Lex.right _ (by simp only [euWeight, euWeightL]; omega)
      | exact Prod.Lex.left _ _ (by simp only [etWeight, etWeightL]; omega)

/-- Compile a `FormattedUpdate`'s arguments in order (the generator
expression in its `compile`). -/
def compileArgs : List EditUpdate → List EditTree → List Line →
    Option (List Line)
  | [], _, _ => some []
  | u :: us, subEdits, sourceLines =>
    match compileUpdate u subEdits sourceLines with
    | none => none
    | some t => (compileArgs us subEdits sourceLines).map (t :: ·)
termination_by us subs _ => (etWeightL subs, euWeightL us + 1)
decreasing_by
  all_goals
    first
      | decreasing_tactic
      | (have hpos := euWeight_pos u
         simp only [euWeight, euWeightL, etWeight, etWeightL]
         omega)
      | (have hpos := euWeight_pos u
         exact Prod.Lex.right _ (by simp only [euWeight, euWeightL]; omega))

/-- `TreeUpdate.compile`'s search: scan the sub-edits; on the first one
whose source node equals the referenced node (Python `==`) and which
carries an edit, compile that edit against its own children; if the scan
finds nothing, fall back to the node's original text. -/
def treeRefCompile (n : Node) : List EditTree → List Line → Option Line
  | [], sourceLines => matchSpan n sourceLines
  | .mk m tgt cs :: rest, sourceLines =>
    match tgt with
    | none => treeRefCompile n rest sourceLines
    | some u =>
      if m == n then compileUpdate u cs sourceLines
      else treeRefCompile n rest sourceLines
termination_by subs _ => (etWeightL subs, 0)
decreasing_by
  all_goals
    first
      | decreasing_tactic
      | (simp only [euWeight, euWeightL, etWeight, etWeightL]; omega)
      | exact Prod.Lex.left _ _ (by simp only [etWeight, etWeightL]; omega)

end

/-- `EditTree.__init__`'s child mutation: a child whose `target_edit` is
`None` has its children cleared (an all-unchanged subtree is pruned). -/
def pruneChild : EditTree → EditTree
  | .mk m none _ => .mk m none []
  | .mk m (some u) cs => .mk m (some u) cs

/-- `EditTree.__init__`: prune unchanged children; if this node has no
edit of its own but some (pruned) child carries one, coerce the target
to `SubtreeUpdate` so the executor descends. -/
def mkEditTree (sourceNode : Node) (targetEdit : Option EditUpdate)
    (children : List EditTree) : EditTree :=
  let children' := children.map pruneChild
  if targetEdit.isNone && children'.any (fun c => c.targetEdit.isSome) then
    .mk sourceNode (some .subtree) children'
  else
    .mk sourceNode targetEdit children'

/-- `ASTTransformer` as a visitor: enter always descends (the default
`visit` returns `None`, which is not `False`); on leave, the handler's
normalised result (`h`, with a returned `str` already wrapped into
`TextUpdate` and any non-`EditUpdate` collapsed to `None`) is combined
with the `child_count` edit trees popped from the synthesis stack. -/
def transformerVisitor (h : Node → Option EditUpdate) :
    SVisitor (List EditTree) where
  onVisit := fun st _ => (st, true)
  onLeave := fun st n =>
    mkEditTree n (h n) ((st.take n.childCount).reverse) ::
      st.drop n.childCount

mutual

/-- The edit tree a completed traversal synthesizes for `n` (shown below
to be what `transformerVisitor` leaves on the stack). -/
def buildEdit (h : Node → Option EditUpdate) : Node → EditTree
  | .mk t sp ep cs =>
    mkEditTree (.mk t sp ep cs) (h (.mk t sp ep cs)) (buildEditL h cs)

/-- `buildEdit` over a forest, in sibling order. -/
def buildEditL (h : Node → Option EditUpdate) : List Node → List EditTree
  | [] => []
  | c :: cs => buildEdit h c :: buildEditL h cs

end

theorem buildEditL_length (h : Node → Option EditUpdate) :
    ∀ cs : List Node, (buildEditL h cs).length = cs.length
  | [] => by rw [buildEditL]; rfl
  | c :: cs => by
    rw [buildEditL]
    simp only [List.length_cons]
    rw [buildEditL_length h cs]

theorem transformerVisitor_onVisit (h : Node → Option EditUpdate)
    (st : List EditTree) (n : Node) :
    (transformerVisitor h).onVisit st n = (st, true) := rfl

theorem transformerVisitor_onLeave (h : Node → Option EditUpdate)
    (st : List EditTree) (n : Node) :
    (transformerVisitor h).onLeave st n =
      mkEditTree n (h n) ((st.take n.childCount).reverse) ::
        st.drop n.childCount := rfl

mutual

/-- The synthesis stack after walking `n`: exactly one new edit tree on
top, and it is `buildEdit h n`. -/
theorem walkRec_transformer (h : Node → Option EditUpdate) :
    ∀ (n : Node) (st : List EditTree),
    walkRec (transformerVisitor h) st n = buildEdit h n :: st
  | .mk t sp ep cs, st => by
    rw [walkRec, buildEdit]
    simp only [transformerVisitor_onVisit, transformerVisitor_onLeave, if_true]
    rw [walkRecL_transformer h cs st]
    have hlen : ((buildEditL h cs).reverse).length = cs.length := by
      rw [List.length_reverse, buildEditL_length h cs]
    simp only [Node.childCount, Node.children]
    rw [← hlen, List.take_left, List.drop_left]
    rw [List.reverse_reverse]

/-- The synthesis stack after walking a forest: one edit tree per tree,
last tree on top. -/
theorem walkRecL_transformer (h : Node → Option EditUpdate) :
    ∀ (cs : List Node) (st : List EditTree),
    walkRecL (transformerVisitor h) st cs =
      (buildEditL h cs).reverse ++ st
  | [], st => by
    rw [walkRecL, buildEditL]
    rfl
  | c :: cs, st => by
    rw [walkRecL, buildEditL]
    rw [walkRec_transformer h c st]
    rw [walkRecL_transformer h cs (buildEdit h c :: st)]
    simp

end

/-! ## The edit executor: `transformer.EditExecutor` -/

/-- `EditExecutor._move_cursor(position)`: assert the target is not
behind the cursor, copy whole lines (with their newlines) while the
cursor's row is short of the target's, then copy the partial final
line.  Returns the new cursor and the copied text; `none` models the
`AssertionError` or an `IndexError` on a row past the stored lines. -/
def moveCursor (sourceLines : List Line) (c p : Pos) :
    Option (Pos × Line) :=
  if posLe c p = false then none
  else if c.1 < p.1 then
    match sourceLines.get? c.1 with
    | none => none
    | some l =>
      let piece := if c.2 == 0 then l else l.drop c.2
      match moveCursor sourceLines (c.1 + 1, 0) p with
      | none => none
      | some (c', out) => some (c', piece ++ '\n' :: out)
  else if c.2 < p.2 then
    match sourceLines.get? c.1 with
    | none => none
    | some l => some ((c.1, p.2), (l.drop c.2).take (p.2 - c.2))
  else some (c, [])
termination_by p.1 - c.1
decreasing_by
  · omega

/-- The executor's mutable state: the edit stack (top first — Python
appends and pops at the end of its list), the output text accumulated so
far (`"".join` of `_target_lines`), and the cursor and delayed-flush
positions. -/
structure ExecState where
  editStack : List EditTree
  out : Line
  cursor : Pos
  delayMove : Pos

/-- One iteration of `EditExecutor.walk`'s loop: pop an edit tree and
`_execute` it.  A `None` target delays the cursor to the node's end; a
`SubtreeUpdate` pushes the children (first child on top); any concrete
edit first flushes the delayed verbatim region, then skips the cursor to
the node's end and appends the compiled text. -/
def execStep (sourceLines : List Line) (st : ExecState) : Option ExecState :=
  match st.editStack with
  | [] => none
  | e :: rest =>
    match e.targetEdit with
    | none =>
      if posLe st.cursor e.sourceNode.endPoint then
        some ⟨rest, st.out, st.cursor, e.sourceNode.endPoint⟩
      else none
    | some .subtree =>
      some ⟨e.children ++ rest, st.out, st.cursor, st.delayMove⟩
    | some u =>
      if posLe st.cursor st.delayMove then
        match moveCursor sourceLines st.cursor st.delayMove with
        | none => none
        | some (c₁, chunk) =>
          match compileUpdate u e.children sourceLines with
          | none => none
          | some t =>
            some ⟨rest, st.out ++ chunk ++ t, e.sourceNode.endPoint, c₁⟩
      else
        match compileUpdate u e.children sourceLines with
        | none => none
        | some t => some ⟨rest, st.out ++ t, e.sourceNode.endPoint, st.delayMove⟩

theorem execStep_weight {sourceLines : List Line} {st st' : ExecState}
    (h : execStep sourceLines st = some st') :
    etWeightL st'.editStack < etWeightL st.editStack := by
  rcases st with ⟨_ | ⟨e, rest⟩, out, cursor, delay⟩
  · cases h
  · rcases e with ⟨n, _ | u, cs⟩
    · simp only [execStep, EditTree.targetEdit] at h
      repeat' split at h
      all_goals cases h
      all_goals
        simp only [etWeightL, etWeight]
        omega
    · rcases u with _ | t | m | m | ⟨fmt, args⟩
      all_goals
        simp only [execStep, EditTree.targetEdit] at h
        repeat' split at h
        all_goals cases h
        all_goals
          simp only [etWeightL, etWeight, EditTree.children, etWeightL_append]
          omega

/-- `EditExecutor.walk()`: run the loop to exhaustion, then flush any
outstanding delayed region and return the joined output. -/
def runExec (sourceLines : List Line) (st : ExecState) : Option Line :=
  match st.editStack with
  | [] =>
    if posLe st.cursor st.delayMove then
      match moveCursor sourceLines st.cursor st.delayMove with
      | none => none
      | some (_, chunk) => some (st.out ++ chunk)
    else some st.out
  | _ :: _ =>
    match hstep : execStep sourceLines st with
    | none => none
    | some st' => runExec sourceLines st'
termination_by etWeightL st.editStack
decreasing_by
  · exact execStep_weight hstep

/-- `EditTree.apply(code_lines)`. -/
def EditTree.applyEdit (t : EditTree) (sourceLines : List Line) :
    Option Line :=
  runExec sourceLines ⟨[t], [], (0, 0), (0, 0)⟩

/-- `ASTTransformer.code()` after a completed `visit`: walk the tree
with the transformer (the engine's cursor loop), require exactly one
synthesized edit tree (`edit()`'s assertion), and apply it to the stored
code lines. -/
def astTransform (h : Node → Option EditUpdate) (n : Node)
    (sourceLines : List Line) : Option Line :=
  match walkLoop (transformerVisitor h) [] ⟨n, []⟩ with
  | [t] => t.applyEdit sourceLines
  | _ => none

/-- The full pipeline reduces to: apply the synthesized
`buildEdit h n`. -/
theorem astTransform_eq (h : Node → Option EditUpdate) (n : Node)
    (sourceLines : List Line) :
    astTransform h n sourceLines = (buildEdit h n).applyEdit sourceLines := by
  rw [astTransform, walkLoop_eq_unwind, unwindFrom]
  rw [walkRec_transformer h n []]

theorem pruneChild_target (t : EditTree) :
    (pruneChild t).targetEdit = t.targetEdit := by
  rcases t with ⟨m, _ | u, cs⟩ <;> rfl

theorem mkEditTree_target (n : Node) (tgt : Option EditUpdate)
    (children : List EditTree) :
    (mkEditTree n tgt children).targetEdit =
      if tgt.isNone && children.any (fun c => c.targetEdit.isSome) then
        some .subtree
      else tgt := by
  rw [mkEditTree]
  have hany : (children.map pruneChild).any (fun c => c.targetEdit.isSome) =
      children.any (fun c => c.targetEdit.isSome) := by
    induction children with
    | nil => rfl
    | cons c cs ih =>
      simp only [List.map_cons, List.any_cons, ih, pruneChild_target]
  simp only [hany]
  split <;> rfl

theorem mkEditTree_children (n : Node) (tgt : Option EditUpdate)
    (children : List EditTree) :
    (mkEditTree n tgt children).children = children.map pruneChild := by
  rw [mkEditTree]
  split <;> rfl

mutual

/-- All subtrees of an edit tree, the tree itself included. -/
def etSubtrees : EditTree → List EditTree
  | .mk n tgt cs => .mk n tgt cs :: etSubtreesL cs

/-- All subtrees of the trees of a forest. -/
def etSubtreesL : List EditTree → List EditTree
  | [] => []
  | t :: ts => etSubtrees t ++ etSubtreesL ts

end

mutual

/-- A synthesized node carries no operation exactly when the handler
produced no edit anywhere in its subtree. -/
theorem buildEdit_target_none (h : Node → Option EditUpdate) :
    ∀ n : Node,
    (buildEdit h n).targetEdit = none ↔ ∀ m ∈ nodesOf n, h m = none
  | .mk t sp ep cs => by
    rw [buildEdit, mkEditTree_target, nodesOf]
    rcases hh : h (.mk t sp ep cs) with _ | u
    · simp only [Option.isNone_none, Bool.true_and]
      rcases hany : (buildEditL h cs).any (fun c => c.targetEdit.isSome)
        with _ | _
      · simp only [Bool.false_eq_true, if_false]
        constructor
        · intro _ m hm
          rcases List.mem_cons.mp hm with hm | hm
          · rw [hm, hh]
          · have hall := List.any_eq_false.mp hany
            have hnone : ∀ c ∈ buildEditL h cs, c.targetEdit = none := by
              intro c hc
              have := hall c hc
              rcases hres : c.targetEdit with _ | u₀
              · rfl
              · rw [hres] at this
                simp at this
            exact ((buildEditL_target_none h cs).mp hnone) m hm
        · intro _
          trivial
      · simp only [if_true]
        constructor
        · intro hcontr
          cases hcontr
        · intro hall
          rcases List.any_eq_true.mp hany with ⟨c, hc, hsome⟩
          have : c.targetEdit = none :=
            (buildEditL_target_none h cs).mpr
              (fun m hm => hall m (List.mem_cons_of_mem _ hm)) c hc
          rw [this] at hsome
          simp at hsome
    · simp only [Option.isNone_some, Bool.false_and, Bool.false_eq_true,
        if_false]
      constructor
      · intro hcontr
        cases hcontr
      · intro hall
        have := hall (.mk t sp ep cs) (List.mem_cons_self _ _)
        rw [hh] at this
        cases this

/-- `buildEdit_target_none` for a forest. -/
theorem buildEditL_target_none (h : Node → Option EditUpdate) :
    ∀ cs : List Node,
    (∀ c ∈ buildEditL h cs, c.targetEdit = none) ↔
      ∀ m ∈ nodesOfL cs, h m = none
  | [] => by
    rw [buildEditL, nodesOfL]
    simp
  | c :: cs => by
    rw [buildEditL, nodesOfL]
    constructor
    · intro hall m hm
      rcases List.mem_append.mp hm with hm | hm
      · exact (buildEdit_target_none h c).mp
          (hall _ (List.mem_cons_self _ _)) m hm
      · exact (buildEditL_target_none h cs).mp
          (fun c' hc' => hall c' (List.mem_cons_of_mem _ hc')) m hm
    · intro hall c' hc'
      rcases List.mem_cons.mp hc' with hc' | hc'
      · rw [hc']
        exact (buildEdit_target_none h c).mpr
          (fun m hm => hall m (List.mem_append_left _ hm))
      · exact (buildEditL_target_none h cs).mpr
          (fun m hm => hall m (List.mem_append_right _ hm)) c' hc'

end

mutual

/-- Every strict subtree of a synthesized edit tree that carries no
operation has been pruned to an empty children list. -/
theorem buildEdit_pruned (h : Node → Option EditUpdate) :
    ∀ n : Node, ∀ t' ∈ etSubtreesL ((buildEdit h n).children),
    t'.targetEdit = none → t'.children = []
  | .mk t sp ep cs, t', hmem, htgt => by
    rw [buildEdit, mkEditTree_children] at hmem
    exact buildEditL_pruned h cs t' hmem htgt

/-- `buildEdit_pruned` for the pruned children of a node. -/
theorem buildEditL_pruned (h : Node → Option EditUpdate) :
    ∀ cs : List Node, ∀ t' ∈ etSubtreesL ((buildEditL h cs).map pruneChild),
    t'.targetEdit = none → t'.children = []
  | [], t', hmem, htgt => by
    rw [buildEditL] at hmem
    simp only [List.map_nil] at hmem
    rw [etSubtreesL] at hmem
    cases hmem
  | c :: cs, t', hmem, htgt => by
    rw [buildEditL] at hmem
    simp only [List.map_cons] at hmem
    rw [etSubtreesL] at hmem
    rcases List.mem_append.mp hmem with hmem | hmem
    · rcases hbuild : buildEdit h c with ⟨m, _ | u, bcs⟩
      · rw [hbuild] at hmem
        rw [pruneChild] at hmem
        rw [etSubtrees, etSubtreesL] at hmem
        rcases List.mem_cons.mp hmem with hmem | hmem
        · rw [hmem]
          rfl
        · cases hmem
      · rw [hbuild] at hmem
        rw [pruneChild] at hmem
        rw [etSubtrees] at hmem
        rcases List.mem_cons.mp hmem with hmem | hmem
        · rw [hmem] at htgt
          cases htgt
        · have := buildEdit_pruned h c t'
          rw [hbuild] at this
          exact this hmem htgt
    · exact buildEditL_pruned h cs t' hmem htgt

end

/-- C4: in every edit tree a completed traversal synthesizes, (1) every
strict subtree whose operation is absent has an empty children list (an
all-unchanged subtree is pruned at its parent's construction), and (2) a
node whose own handler produced no edit but with an edited strict
descendant carries the subtree-delegation marker `SubtreeUpdate`. -/
theorem editTree_pruning_and_delegation (h : Node → Option EditUpdate)
    (n : Node) :
    (∀ t' ∈ etSubtreesL ((buildEdit h n).children),
      t'.targetEdit = none → t'.children = []) ∧
    (h n = none → (∃ m ∈ nodesOfL n.children, h m ≠ none) →
      (buildEdit h n).targetEdit = some .subtree) := by
  constructor
  · exact buildEdit_pruned h n
  · intro hn ⟨m, hm, hedit⟩
    rcases n with ⟨t, sp, ep, cs⟩
    rw [buildEdit, mkEditTree_target]
    rw [hn]
    simp only [Option.isNone_none, Bool.true_and]
    rcases hany : (buildEditL h cs).any (fun c => c.targetEdit.isSome)
      with _ | _
    · exfalso
      have hall := List.any_eq_false.mp hany
      have hnone : ∀ c ∈ buildEditL h cs, c.targetEdit = none := by
        intro c hc
        have := hall c hc
        rcases hres : c.targetEdit with _ | u₀
        · rfl
        · rw [hres] at this
          simp at this
      exact hedit ((buildEditL_target_none h cs).mp hnone m hm)
    · simp only [if_true]

/-- A tiny concrete tree and single-edit handler exercising C4. -/
def exLeafA : Node := .mk "identifier" (0, 0) (0, 2) []

/-- Second leaf of the C4 example tree. -/
def exLeafB : Node := .mk "identifier" (0, 3) (0, 5) []

/-- Root of the C4 example tree. -/
def exRoot : Node := .mk "module" (0, 0) (0, 5) [exLeafA, exLeafB]

/-- The C4 example handler: edit only `exLeafB`. -/
def exHandler : Node → Option EditUpdate :=
  fun m => if m == exLeafB then some (.text ['X', 'Y']) else none

theorem editTree_pruning_and_delegation_witness :
    exHandler exRoot = none ∧
    (∃ m ∈ nodesOfL exRoot.children, exHandler m ≠ none) ∧
    (buildEdit exHandler exRoot).targetEdit = some .subtree ∧
    (∀ t' ∈ etSubtreesL ((buildEdit exHandler exRoot).children),
      t'.targetEdit = none → t'.children = []) := by
  have hmemB : exLeafB ∈ nodesOfL exRoot.children := by decide
  have hB : exHandler exLeafB = some (.text ['X', 'Y']) := rfl
  have hBne : exHandler exLeafB ≠ none := by
    intro hcontr
    rw [hB] at hcontr
    cases hcontr
  refine ⟨rfl, ⟨exLeafB, hmemB, hBne⟩, ?_, ?_⟩
  · exact (editTree_pruning_and_delegation exHandler exRoot).2 rfl
      ⟨exLeafB, hmemB, hBne⟩
  · exact (editTree_pruning_and_delegation exHandler exRoot).1

/-! ## The identity law for the no-edit pipeline

`ASTParser.parse` hands the transformer `source_code.splitlines()`;
the executor rejoins with `"\n"`.  tree-sitter's end point of the root
counts rows at `\n` alone.  The reconstruction below is exact for
sources whose only line boundaries are `\n`, and is refuted by `"\r\n"`
sources. -/

/-- Length of the text after the last `\n` (the whole length when there
is none): the column of tree-sitter's end point. -/
def lastSegLen (S : List Char) : Nat :=
  (S.reverse.takeWhile (fun c => decide (c ≠ '\n'))).length

/-- The end point tree-sitter assigns to a parsed source: rows count its
`\n` characters, the column is the length of the last line. -/
def tsEndPoint (S : List Char) : Pos := (S.count '\n', lastSegLen S)

/-- Sources whose only line-boundary characters are `\n` (no `\r`, form
feeds, or unicode separators). -/
def onlyNl (S : List Char) : Prop :=
  ∀ c ∈ S, pyLineBreak c = true → c = '\n'

instance (S : List Char) : Decidable (onlyNl S) := by
  unfold onlyNl
  infer_instance

theorem splitlinesGo_free (l₀ : List Char)
    (hfree : ∀ c ∈ l₀, pyLineBreak c = false) :
    ∀ acc : Line, splitlinesGo acc l₀ =
      if (acc.reverse ++ l₀).isEmpty then [] else [acc.reverse ++ l₀] := by
  induction l₀ with
  | nil =>
    intro acc
    rw [splitlinesGo]
    simp
  | cons c l₀ ih =>
    intro acc
    have hc := hfree c (List.mem_cons_self _ _)
    have hcr : ¬ c = '\r' := by
      intro hcontr
      rw [hcontr] at hc
      simp [pyLineBreak] at hc
    rw [splitlinesGo, if_neg hcr, if_neg (by rw [hc]; simp)]
    rw [ih (fun d hd => hfree d (List.mem_cons_of_mem _ hd)) (c :: acc)]
    simp

theorem splitlinesGo_break (S' : List Char) :
    ∀ (l₀ : List Char), (∀ c ∈ l₀, pyLineBreak c = false) →
    ∀ acc : Line,
    splitlinesGo acc (l₀ ++ '\n' :: S') =
      (acc.reverse ++ l₀) :: splitlinesGo [] S'
  | [], _, acc => by
    rw [List.nil_append, splitlinesGo]
    rw [if_neg (by simp : ¬ ('\n' : Char) = '\r')]
    rw [if_pos (by simp [pyLineBreak])]
    simp
  | c :: l₀, hfree, acc => by
    have hc := hfree c (List.mem_cons_self _ _)
    have hcr : ¬ c = '\r' := by
      intro hcontr
      rw [hcontr] at hc
      simp [pyLineBreak] at hc
    rw [List.cons_append, splitlinesGo, if_neg hcr, if_neg (by rw [hc]; simp)]
    rw [splitlinesGo_break S' l₀ (fun d hd => hfree d (List.mem_cons_of_mem _ hd))
      (c :: acc)]
    simp

theorem count_nl_free {l₀ : List Char}
    (hfree : ∀ c ∈ l₀, pyLineBreak c = false) : l₀.count '\n' = 0 := by
  rw [List.count_eq_zero]
  intro hmem
  have := hfree '\n' hmem
  simp [pyLineBreak] at this

theorem takeWhile_append_break (p : Char → Bool) (hp : p '\n' = false) :
    ∀ xs ys : List Char,
    (xs ++ '\n' :: ys).takeWhile p = xs.takeWhile p
  | [], ys => by
    rw [List.nil_append, List.takeWhile_cons, hp]
    rfl
  | x :: xs, ys => by
    rw [List.cons_append, List.takeWhile_cons, List.takeWhile_cons]
    rcases hx : p x with _ | _
    · rfl
    · rw [takeWhile_append_break p hp xs ys]

theorem lastSegLen_free {S : List Char}
    (hfree : ∀ c ∈ S, pyLineBreak c = false) : lastSegLen S = S.length := by
  rw [lastSegLen]
  have : S.reverse.takeWhile (fun c => decide (c ≠ '\n')) = S.reverse := by
    rw [List.takeWhile_eq_self_iff]
    intro c hc
    have := hfree c (List.mem_reverse.mp hc)
    simp only [decide_eq_true_iff]
    intro hcontr
    rw [hcontr] at this
    simp [pyLineBreak] at this
  rw [this, List.length_reverse]

theorem lastSegLen_break (l₀ S' : List Char) :
    lastSegLen (l₀ ++ '\n' :: S') = lastSegLen S' := by
  rw [lastSegLen, lastSegLen]
  rw [List.reverse_append, List.reverse_cons, List.append_assoc,
    List.singleton_append]
  rw [takeWhile_append_break _ (by simp) S'.reverse l₀.reverse]

theorem posLe_succ_succ (a b c d : Nat) :
    posLe (a + 1, b) (c + 1, d) = posLe (a, b) (c, d) := by
  simp only [posLe, decide_eq_decide]
  omega

/-- Flushing between positions one row further down, over a line list
with one extra line on top, shifts the resulting cursor by a row and
copies the same text. -/
theorem moveCursor_shift (l : Line) (ls : List Line) :
    ∀ (tl a b tc : Nat),
    moveCursor (l :: ls) (a + 1, b) (tl + 1, tc) =
      (moveCursor ls (a, b) (tl, tc)).map
        (fun r => ((r.1.1 + 1, r.1.2), r.2)) := fun tl a b tc => by
  rw [moveCursor.eq_def, moveCursor.eq_def (c := ((a, b) : Pos))]
  simp only [posLe_succ_succ]
  rcases hle : posLe (a, b) (tl, tc) with _ | _
  · simp
  · simp only [Bool.true_eq_false, if_false]
    by_cases hlt : a < tl
    · simp only [if_pos (by omega : a + 1 < tl + 1), if_pos hlt]
      simp only [List.get?_cons_succ]
      rcases hget : ls.get? a with _ | line
      · simp
      · simp only []
        have hrec := moveCursor_shift l ls tl (a + 1) 0 tc
        rw [hrec]
        rcases hm : moveCursor ls (a + 1, 0) (tl, tc) with _ | ⟨c', out⟩
        · simp
        · simp
    · simp only [if_neg (by omega : ¬ a + 1 < tl + 1), if_neg hlt]
      by_cases hc : b < tc
      · simp only [if_pos hc]
        simp only [List.get?_cons_succ]
        rcases hget : ls.get? a with _ | line
        · simp
        · simp
      · simp only [if_neg hc]
        simp
termination_by tl a _ _ => tl - a
decreasing_by
  · omega

theorem dropWhile_head_false {p : Char → Bool} :
    ∀ {S : List Char} {c0 : Char} {S' : List Char},
    S.dropWhile p = c0 :: S' → p c0 = false := by
  intro S
  induction S with
  | nil => intro c0 S' hcontr; cases hcontr
  | cons a S ih =>
    intro c0 S' hd
    rw [List.dropWhile_cons] at hd
    split at hd
    · exact ih hd
    · rename_i hpa
      cases hd
      rcases hb : p a with _ | _
      · rfl
      · exact absurd hb hpa

/-- Flushing the split lines from `(0, 0)` to the tree-sitter end point
reconstructs the source exactly, provided its line boundaries are all
`\n` — the executor's rejoin with `"\n"` is then lossless. -/
theorem moveCursor_splitlines :
    ∀ (S : List Char), onlyNl S →
    moveCursor (pySplitlines S) (0, 0) (tsEndPoint S) =
      some (tsEndPoint S, S) := fun S h => by
  rcases hdec : S.dropWhile (fun c => decide (c ≠ '\n')) with _ | ⟨c0, S'⟩
  · -- no `\n` at all: a single line (or none), flushed by the column run
    have hsplit := List.takeWhile_append_dropWhile
      (p := fun c => decide (c ≠ '\n')) (l := S)
    rw [hdec, List.append_nil] at hsplit
    have hnonl : ∀ c ∈ S, c ≠ '\n' := by
      intro c hc
      rw [← hsplit] at hc
      have := List.mem_takeWhile_imp hc
      simpa using this
    have hfree : ∀ c ∈ S, pyLineBreak c = false := by
      intro c hc
      rcases hb : pyLineBreak c with _ | _
      · rfl
      · exact absurd (h c hc hb) (hnonl c hc)
    have hcount : S.count '\n' = 0 := count_nl_free hfree
    have hseg : lastSegLen S = S.length := lastSegLen_free hfree
    have hlines : pySplitlines S =
        if S.isEmpty then [] else [S] := by
      rw [pySplitlines, splitlinesGo_free S hfree []]
      simp
    rcases hS : S with _ | ⟨a, S₀⟩
    · rw [hS] at hlines
      simp only [List.isEmpty_nil, if_true] at hlines
      rw [tsEndPoint, hlines]
      rw [moveCursor.eq_def]
      simp [posLe, lastSegLen]
    · rw [← hS]
      rw [hS] at hlines
      simp only [List.isEmpty_cons, if_false, Bool.false_eq_true] at hlines
      rw [← hS] at hlines
      rw [tsEndPoint, hcount, hseg, hlines]
      rw [moveCursor.eq_def]
      rw [if_neg (by rw [posLe_zero]; decide)]
      rw [if_neg (by omega : ¬ (((0 : Nat), (0 : Nat)) : Pos).1 < ((0, S.length) : Pos).1)]
      have hpos : 0 < S.length := by rw [hS]; simp
      rw [if_pos (by simpa using hpos)]
      simp
  · -- a first `\n`: peel the first line, shift, and recurse on the rest
    have hc0 : c0 = '\n' := by
      have hb := dropWhile_head_false hdec
      simpa using hb
    subst hc0
    obtain ⟨l₀, hl₀⟩ : ∃ l₀, S.takeWhile (fun c => decide (c ≠ '\n')) = l₀ :=
      ⟨_, rfl⟩
    have hsplit := List.takeWhile_append_dropWhile
      (p := fun c => decide (c ≠ '\n')) (l := S)
    rw [hdec, hl₀] at hsplit
    have hfree : ∀ c ∈ l₀, pyLineBreak c = false := by
      intro c hc
      have hcs : c ∈ S := by
        rw [← hsplit]
        exact List.mem_append_left _ hc
      have hne : ¬ c = '\n' := by
        rw [← hl₀] at hc
        simpa using List.mem_takeWhile_imp hc
      rcases hb : pyLineBreak c with _ | _
      · rfl
      · exact absurd (h c hcs hb) hne
    have hS' : onlyNl S' := by
      intro c hc hb
      exact h c (by
        rw [← hsplit]
        exact List.mem_append_right _ (List.mem_cons_of_mem _ hc)) hb
    have hlen : S'.length < S.length := by
      rw [← hsplit, List.length_append, List.length_cons]
      omega
    have hrec := moveCursor_splitlines S' hS'
    have hcount : S.count '\n' = S'.count '\n' + 1 := by
      rw [← hsplit, List.count_append, count_nl_free hfree, List.count_cons]
      simp
    have hseg : lastSegLen S = lastSegLen S' := by
      rw [← hsplit]
      exact lastSegLen_break _ _
    have hlines : pySplitlines S = l₀ :: pySplitlines S' := by
      rw [pySplitlines, pySplitlines, ← hsplit,
        splitlinesGo_break S' _ hfree []]
      simp
    rw [tsEndPoint, hcount, hseg, hlines]
    rw [moveCursor.eq_def]
    rw [if_neg (by rw [posLe_zero]; decide)]
    rw [if_pos (by omega :
      (((0 : Nat), (0 : Nat)) : Pos).1 <
        (((S'.count '\n' + 1 : Nat), (lastSegLen S' : Nat)) : Pos).1)]
    simp only [List.get?_cons_zero, Nat.zero_add]
    have hshift := moveCursor_shift l₀
      (pySplitlines S') (S'.count '\n') 0 0 (lastSegLen S')
    simp only [Nat.zero_add] at hshift
    rw [tsEndPoint] at hrec
    rw [hshift, hrec]
    rw [← hsplit]
    simp
termination_by S => S.length
decreasing_by
  · exact hlen

theorem mkEditTree_sourceNode (n : Node) (tgt : Option EditUpdate)
    (children : List EditTree) :
    (mkEditTree n tgt children).sourceNode = n := by
  rw [mkEditTree]
  split <;> rfl

theorem buildEdit_sourceNode (h : Node → Option EditUpdate) :
    ∀ n : Node, (buildEdit h n).sourceNode = n
  | .mk t sp ep cs => by
    rw [buildEdit, mkEditTree_sourceNode]

theorem runExec_cons {lines : List Line} {st : ExecState}
    (hne : st.editStack ≠ []) :
    runExec lines st = match execStep lines st with
      | none => none
      | some st' => runExec lines st' := by
  rw [runExec.eq_def]
  split
  · rename_i hnil
    exact absurd hnil hne
  · split
    · rename_i hstep
      rw [hstep]
    · rename_i st' hstep
      rw [hstep]

theorem runExec_nil (lines : List Line) (out : Line) (c d : Pos)
    (h : posLe c d = true) :
    runExec lines (⟨[], out, c, d⟩ : ExecState) =
      (moveCursor lines c d).map (fun r => out ++ r.2) := by
  rw [runExec.eq_def]
  simp only [h, if_true]
  rcases hm : moveCursor lines c d with _ | ⟨c', chunk⟩
  · rfl
  · rfl

/-- A handler that never edits drives the whole pipeline to a single
flush from `(0, 0)` to the root's end point. -/
theorem astTransform_noop (n : Node) (lines : List Line) :
    astTransform (fun _ => none) n lines =
      (moveCursor lines (0, 0) n.endPoint).map (fun r => r.2) := by
  have htgt : (buildEdit (fun _ => none) n).targetEdit = none :=
    (buildEdit_target_none (fun _ => none) n).mpr (fun _ _ => rfl)
  have hsrc := buildEdit_sourceNode (fun _ => none) n
  rw [astTransform_eq, EditTree.applyEdit]
  rw [runExec_cons (by simp)]
  have hstep : execStep lines
      (⟨[buildEdit (fun _ => none) n], [], (0, 0), (0, 0)⟩ : ExecState) =
      some ⟨[], [], (0, 0), n.endPoint⟩ := by
    rw [execStep]
    simp only [htgt, hsrc]
    rw [if_pos (posLe_zero _)]
  rw [hstep]
  show runExec lines (⟨[], [], (0, 0), n.endPoint⟩ : ExecState) =
    (moveCursor lines (0, 0) n.endPoint).map (fun r => r.2)
  rw [runExec_nil lines [] (0, 0) n.endPoint (posLe_zero _)]
  rcases hm : moveCursor lines (0, 0) n.endPoint with _ | ⟨c', chunk⟩
  · rfl
  · simp

/-- C1 (counterexample): the pipeline is NOT the identity on sources with
`\r\n` line endings.  `str.splitlines` consumes the terminators and the
executor rejoins with `"\n"`, so the no-edit transform of
`"a\r\nb"` (whose tree-sitter root ends at `(1, 1)`) yields `"a\nb"`:
line endings are normalized, not preserved character-for-character. -/
theorem noop_transform_normalizes_crlf :
    astTransform (fun _ => none) (Node.mk "module" (0, 0) (1, 1) [])
        (pySplitlines ['a', '\r', '\n', 'b']) = some ['a', '\n', 'b'] ∧
    (Node.mk "module" (0, 0) (1, 1) []).endPoint =
      tsEndPoint ['a', '\r', '\n', 'b'] ∧
    (['a', '\n', 'b'] : List Char) ≠ ['a', '\r', '\n', 'b'] := by
  refine ⟨?_, by decide, by decide⟩
  have hlines : pySplitlines ['a', '\r', '\n', 'b'] = [['a'], ['b']] := by
    rw [pySplitlines]
    simp [splitlinesGo.eq_def, pyLineBreak]
  rw [astTransform_noop, hlines]
  simp only [Node.endPoint]
  have hmove : moveCursor [['a'], ['b']] (0, 0) (1, 1) =
      some ((1, 1), ['a', '\n', 'b']) := by
    rw [moveCursor.eq_def]
    rw [if_neg (by decide), if_pos (by decide)]
    rw [moveCursor.eq_def]
    rw [if_neg (by decide), if_neg (by decide), if_pos (by decide)]
    decide
  rw [hmove]
  rfl

/-- C1 (amended): the identity law holds exactly for sources whose line
boundaries are all `\n`: for a tree whose root carries tree-sitter's end
point of `S`, the no-edit pipeline over `S.splitlines()` returns `S`
character-for-character. -/
theorem noop_transform_identity (S : List Char) (n : Node)
    (hnl : onlyNl S) (hend : n.endPoint = tsEndPoint S) :
    astTransform (fun _ => none) n (pySplitlines S) = some S := by
  rw [astTransform_noop, hend, moveCursor_splitlines S hnl]
  rfl

theorem noop_transform_identity_witness :
    onlyNl ['a', '\n', 'b'] ∧
    (Node.mk "module" (0, 0) (1, 1) []).endPoint = tsEndPoint ['a', '\n', 'b'] ∧
    astTransform (fun _ => none) (Node.mk "module" (0, 0) (1, 1) [])
      (pySplitlines ['a', '\n', 'b']) = some ['a', '\n', 'b'] :=
  ⟨by decide, by decide,
    noop_transform_identity ['a', '\n', 'b'] (Node.mk "module" (0, 0) (1, 1) [])
      (by decide) (by decide)⟩

/-! ## C8: executor invariants — the cursor never rewinds, flushes stay
inside the source -/

/-- A flush target the source can serve: a row inside the line list, or
the position just past the last line at column 0.  `_move_cursor` runs
past the source exactly when this fails. -/
def posOkB (lines : List Line) (p : Pos) : Bool :=
  decide (p.1 < lines.length) ||
    (decide (p.1 = lines.length) && decide (p.2 = 0))

theorem posOkB_mono {lines : List Line} {d e : Pos}
    (hle : posLe e d = true) (hd : posOkB lines d = true) :
    posOkB lines e = true := by
  rcases d with ⟨dl, dc⟩
  rcases e with ⟨el, ec⟩
  rw [posLe_iff] at hle
  simp only [posOkB, Bool.or_eq_true, Bool.and_eq_true,
    decide_eq_true_iff] at hd ⊢
  omega

mutual

/-- Well-formed spans, as tree-sitter guarantees for parse trees: start
before end, children ordered and contained in the parent. -/
def nodeWF : Node → Bool
  | .mk _ s e cs => posLe s e && forestWF s cs e

/-- Sibling nodes tile the window from `lo` to `hi` in order. -/
def forestWF : Pos → List Node → Pos → Bool
  | lo, [], hi => posLe lo hi
  | lo, .mk t s e cs :: rest, hi =>
    posLe lo s && nodeWF (.mk t s e cs) && forestWF e rest hi

end

mutual

/-- Well-formedness of an edit tree mirroring a well-formed syntax
tree: the back-referenced spans are well formed and the child edit
trees tile their parent's span. -/
def etWF : EditTree → Bool
  | .mk n _ cs => nodeWF n && etForest n.startPoint cs n.endPoint

/-- Sibling edit trees tile the window from `lo` to `hi` in order. -/
def etForest : Pos → List EditTree → Pos → Bool
  | lo, [], hi => posLe lo hi
  | lo, .mk n u cs :: rest, hi =>
    posLe lo n.startPoint && etWF (.mk n u cs) && etForest n.endPoint rest hi

end

theorem nodeWF_le {n : Node} (h : nodeWF n = true) :
    posLe n.startPoint n.endPoint = true := by
  rcases n with ⟨t, s, e, cs⟩
  rw [nodeWF] at h
  exact (Bool.and_eq_true .. ▸ h).1

theorem etWF_le {e : EditTree} (h : etWF e = true) :
    posLe e.sourceNode.startPoint e.sourceNode.endPoint = true := by
  rcases e with ⟨n, u, cs⟩
  rw [etWF] at h
  exact nodeWF_le (Bool.and_eq_true .. ▸ h).1

theorem etForest_le :
    ∀ (cs : List EditTree) (lo hi : Pos), etForest lo cs hi = true →
    posLe lo hi = true
  | [], lo, hi => fun h => by rwa [etForest] at h
  | .mk n u cs₀ :: rest, lo, hi => fun h => by
    rw [etForest] at h
    obtain ⟨⟨h₁, h₂⟩, h₃⟩ := by simpa using h
    exact posLe_trans h₁ (posLe_trans (etWF_le h₂)
      (etForest_le rest n.endPoint hi h₃))

/-- The stack discipline `EditExecutor.walk` maintains: from `lo`, the
stacked edit trees are well formed, ordered, disjoint, and their spans
end inside the source. -/
def stackOk (lines : List Line) : Pos → List EditTree → Bool
  | _, [] => true
  | lo, e :: rest =>
    posLe lo e.sourceNode.startPoint && etWF e &&
      posOkB lines e.sourceNode.endPoint &&
      stackOk lines e.sourceNode.endPoint rest

theorem stackOk_mono {lines : List Line} {lo lo' : Pos}
    {stack : List EditTree} (hle : posLe lo' lo = true)
    (h : stackOk lines lo stack = true) :
    stackOk lines lo' stack = true := by
  rcases stack with _ | ⟨e, rest⟩
  · rw [stackOk]
  · rw [stackOk] at h ⊢
    obtain ⟨⟨⟨h₁, h₂⟩, h₃⟩, h₄⟩ := by simpa using h
    simp only [Bool.and_eq_true]
    exact ⟨⟨⟨posLe_trans hle h₁, h₂⟩, h₃⟩, h₄⟩

theorem stackOk_append {lines : List Line} :
    ∀ (cs : List EditTree) (lo' lo hi : Pos) (rest : List EditTree),
    posLe lo' lo = true → etForest lo cs hi = true →
    posOkB lines hi = true → stackOk lines hi rest = true →
    stackOk lines lo' (cs ++ rest) = true
  | [], lo', lo, hi, rest => fun hle hF _ hrest => by
    rw [etForest] at hF
    rw [List.nil_append]
    exact stackOk_mono (posLe_trans hle hF) hrest
  | .mk n u cs₀ :: cs', lo', lo, hi, rest => fun hle hF hhi hrest => by
    rw [etForest] at hF
    obtain ⟨⟨h₁, h₂⟩, h₃⟩ := by simpa using hF
    rw [List.cons_append, stackOk]
    simp only [Bool.and_eq_true, EditTree.sourceNode]
    refine ⟨⟨⟨posLe_trans hle h₁, h₂⟩,
      posOkB_mono (etForest_le cs' n.endPoint hi h₃) hhi⟩, ?_⟩
    exact stackOk_append cs' n.endPoint n.endPoint hi rest (posLe_refl _)
      h₃ hhi hrest

/-- A successful verbatim flush lands exactly on its target position:
`_move_cursor` copies up to `pos` and no further. -/
theorem moveCursor_target (lines : List Line) :
    ∀ (c d : Pos) (r : Pos × Line),
    moveCursor lines c d = some r → r.1 = d := fun c d r h => by
  rw [moveCursor.eq_def] at h
  split at h
  · cases h
  · rename_i hle
    have hle' : posLe c d = true := by
      rcases hb : posLe c d with _ | _
      · exact absurd hb hle
      · rfl
    split at h
    · rename_i hlt
      split at h
      · cases h
      · rename_i l hget
        rcases hrec : moveCursor lines (c.1 + 1, 0) d with _ | ⟨c', out⟩
        · rw [hrec] at h
          dsimp only [] at h
          exact Option.noConfusion h
        · rw [hrec] at h
          dsimp only [] at h
          cases h
          exact moveCursor_target lines (c.1 + 1, 0) d (c', out) hrec
    · rename_i hlt
      split at h
      · rename_i hcol
        split at h
        · cases h
        · cases h
          have : c.1 = d.1 := by
            rw [posLe_iff] at hle'
            omega
          simp only []
          rw [this]
      · rename_i hcol
        cases h
        have h1 : c.1 = d.1 := by
          rw [posLe_iff] at hle'
          omega
        have h2 : c.2 = d.2 := by
          rw [posLe_iff] at hle'
          omega
        simp only []
        rcases c with ⟨cl, cc⟩
        rcases d with ⟨dl, dc⟩
        simp only [] at h1 h2
        rw [h1, h2]
termination_by c d => d.1 - c.1
decreasing_by
  · omega

/-- A flush whose target is inside the source succeeds. -/
theorem moveCursor_isSome (lines : List Line) :
    ∀ (c d : Pos), posLe c d = true →
    (c = d ∨ posOkB lines d = true) →
    (moveCursor lines c d).isSome = true := fun c d hle hor => by
  rw [moveCursor.eq_def]
  rw [if_neg (by rw [hle]; decide)]
  by_cases h1 : c.1 < d.1
  · have hcd : ¬ c = d := by
      intro hcontr
      rw [hcontr] at h1
      omega
    have hok : posOkB lines d = true := hor.resolve_left hcd
    have hrow : c.1 < lines.length := by
      simp only [posOkB, Bool.or_eq_true, Bool.and_eq_true,
        decide_eq_true_iff] at hok
      omega
    rw [if_pos h1]
    rcases hget : lines.get? c.1 with _ | l
    · rw [List.get?_eq_none] at hget
      omega
    · have hle₂ : posLe (c.1 + 1, 0) d = true := by
        rw [posLe_iff]
        simp only []
        omega
      have hrec := moveCursor_isSome lines (c.1 + 1, 0) d hle₂ (Or.inr hok)
      obtain ⟨⟨c', out⟩, hr⟩ := Option.isSome_iff_exists.mp hrec
      rw [hr]
      rfl
  · rw [if_neg h1]
    by_cases h2 : c.2 < d.2
    · have hcd : ¬ c = d := by
        intro hcontr
        rw [hcontr] at h2
        omega
      have hok : posOkB lines d = true := hor.resolve_left hcd
      have hrow : d.1 < lines.length := by
        simp only [posOkB, Bool.or_eq_true, Bool.and_eq_true,
          decide_eq_true_iff] at hok
        omega
      have hrow' : c.1 < lines.length := by
        rw [posLe_iff] at hle
        omega
      rw [if_pos h2]
      rcases hget : lines.get? c.1 with _ | l
      · rw [List.get?_eq_none] at hget
        omega
      · rfl
    · rw [if_neg h2]
      rfl
termination_by c d => d.1 - c.1
decreasing_by
  · omega

/-- The executor's state invariant: the stack obeys the discipline from
the current cursor, and the delayed flush target is the initial origin
or a position inside the source. -/
def execInv (lines : List Line) (st : ExecState) : Bool :=
  stackOk lines st.cursor st.editStack &&
    (st.delayMove == ((0, 0) : Pos) || posOkB lines st.delayMove)

theorem execInv_flush {lines : List Line} {st : ExecState}
    (hInv : execInv lines st = true)
    (hle : posLe st.cursor st.delayMove = true) :
    (moveCursor lines st.cursor st.delayMove).isSome = true := by
  rw [execInv, Bool.and_eq_true, Bool.or_eq_true] at hInv
  rcases hInv.2 with hzero | hok
  · have hd : st.delayMove = (0, 0) := by
      rcases hd : st.delayMove with ⟨dl, dc⟩
      rw [hd] at hzero
      simpa using hzero
    have hc : st.cursor = (0, 0) := by
      rw [hd, posLe_iff] at hle
      rcases hc : st.cursor with ⟨cl, cc⟩
      rw [hc] at hle
      simp only [] at hle
      have : cl = 0 ∧ cc = 0 := by omega
      rw [this.1, this.2]
    exact moveCursor_isSome lines _ _ hle (Or.inl (hc.trans hd.symm))
  · exact moveCursor_isSome lines _ _ hle (Or.inr hok)

/-- C8: under the stack discipline `EditExecutor.walk` maintains over an
edit tree mirroring a well-formed syntax tree, every executed step keeps
the cursor non-decreasing, preserves the discipline, and any verbatim
flush the step could perform succeeds and copies exactly up to the
delayed in-bounds position — never past the source's end. -/
theorem executor_cursor_monotone_flush_bounded
    (lines : List Line) (st st' : ExecState)
    (hInv : execInv lines st = true)
    (hstep : execStep lines st = some st') :
    posLe st.cursor st'.cursor = true ∧
    execInv lines st' = true ∧
    (posLe st.cursor st.delayMove = true →
      ∃ out : Line, moveCursor lines st.cursor st.delayMove =
        some (st.delayMove, out)) := by
  have hflush : posLe st.cursor st.delayMove = true →
      ∃ out : Line, moveCursor lines st.cursor st.delayMove =
        some (st.delayMove, out) := by
    intro hle
    have hs := execInv_flush hInv hle
    obtain ⟨⟨c', out⟩, hr⟩ := Option.isSome_iff_exists.mp hs
    have htgt := moveCursor_target lines st.cursor st.delayMove (c', out) hr
    dsimp only [] at htgt
    exact ⟨out, by rw [hr, htgt]⟩
  have hmain : posLe st.cursor st'.cursor = true ∧
      execInv lines st' = true := by
    rcases st with ⟨stack, out, cursor, delay⟩
    rw [execInv, Bool.and_eq_true, Bool.or_eq_true] at hInv
    dsimp only [] at hInv ⊢
    rcases stack with _ | ⟨e, rest⟩
    · rw [execStep] at hstep
      exact Option.noConfusion hstep
    · rcases e with ⟨n, tgt, cs⟩
      rw [stackOk, EditTree.sourceNode] at hInv
      simp only [Bool.and_eq_true] at hInv
      obtain ⟨⟨⟨⟨hlo, hWF⟩, hok⟩, hrest⟩, hdelay⟩ := hInv
      have hse : posLe n.startPoint n.endPoint = true := etWF_le hWF
      have hce : posLe cursor n.endPoint = true := posLe_trans hlo hse
      rw [execStep] at hstep
      dsimp only [EditTree.targetEdit, EditTree.sourceNode,
        EditTree.children] at hstep
      rcases tgt with _ | u
      · -- no edit: delay the flush to the node's end
        rw [if_pos hce] at hstep
        cases hstep
        refine ⟨posLe_refl _, ?_⟩
        rw [execInv, Bool.and_eq_true, Bool.or_eq_true]
        exact ⟨stackOk_mono hce hrest, Or.inr hok⟩
      · rcases u with _ | txt | m | m | ⟨fmt, args⟩
        · -- subtree marker: expand the children in place
          dsimp only [] at hstep
          cases hstep
          refine ⟨posLe_refl _, ?_⟩
          rw [execInv, Bool.and_eq_true, Bool.or_eq_true]
          refine ⟨?_, hdelay⟩
          have hF : etForest n.startPoint cs n.endPoint = true := by
            rw [etWF, Bool.and_eq_true] at hWF
            exact hWF.2
          exact stackOk_append cs cursor n.startPoint n.endPoint rest
            hlo hF hok hrest
        all_goals
          -- a concrete edit: optional flush, then jump to the node's end
          dsimp only [] at hstep
          split at hstep
          all_goals rename_i hle
          · rcases hmv : moveCursor lines cursor delay with _ | ⟨c₁, chunk⟩
            · rw [hmv] at hstep
              exact Option.noConfusion hstep
            · rw [hmv] at hstep
              dsimp only [] at hstep
              split at hstep
              · exact Option.noConfusion hstep
              · rename_i t hcomp
                cases hstep
                refine ⟨hce, ?_⟩
                rw [execInv, Bool.and_eq_true, Bool.or_eq_true]
                refine ⟨hrest, ?_⟩
                have htgt := moveCursor_target lines cursor delay
                  (c₁, chunk) hmv
                dsimp only [] at htgt
                rw [htgt]
                exact hdelay
          · split at hstep
            · exact Option.noConfusion hstep
            · rename_i t hcomp
              cases hstep
              refine ⟨hce, ?_⟩
              rw [execInv, Bool.and_eq_true, Bool.or_eq_true]
              exact ⟨hrest, hdelay⟩
  exact ⟨hmain.1, hmain.2, hflush⟩

theorem executor_cursor_monotone_flush_bounded_witness :
    execInv [['a', 'b']]
      (⟨[EditTree.mk (Node.mk "identifier" (0, 0) (0, 2) []) none []],
        [], (0, 0), (0, 0)⟩ : ExecState) = true ∧
    execStep [['a', 'b']]
      (⟨[EditTree.mk (Node.mk "identifier" (0, 0) (0, 2) []) none []],
        [], (0, 0), (0, 0)⟩ : ExecState) =
      some ⟨[], [], (0, 0), (0, 2)⟩ ∧
    (posLe (0, 0) (0, 0) = true ∧
      execInv [['a', 'b']] (⟨[], [], (0, 0), (0, 2)⟩ : ExecState) = true) :=
  ⟨by decide, rfl, by
    have h := executor_cursor_monotone_flush_bounded [['a', 'b']]
      ⟨[EditTree.mk (Node.mk "identifier" (0, 0) (0, 2) []) none []],
        [], (0, 0), (0, 0)⟩
      ⟨[], [], (0, 0), (0, 2)⟩ (by decide) rfl
    exact ⟨h.1, h.2.1⟩⟩

/-! ## C2: localization of a single concrete edit -/

mutual

/-- Gap-free well-formed spans: start before end, and wherever a node
has children they tile its span exactly (no whitespace between a node's
start and its first child, between siblings, or before its end). -/
def nodeSnug : Node → Bool
  | .mk _ s e cs => posLe s e && (cs.isEmpty || forestSnug s cs e)

/-- Sibling nodes tile the window from `lo` to `hi` exactly. -/
def forestSnug : Pos → List Node → Pos → Bool
  | lo, [], hi => lo == hi
  | lo, .mk t s e cs :: rest, hi =>
    lo == s && nodeSnug (.mk t s e cs) && forestSnug e rest hi

end

theorem nodeSnug_le {n : Node} (h : nodeSnug n = true) :
    posLe n.startPoint n.endPoint = true := by
  rcases n with ⟨t, s, e, cs⟩
  rw [nodeSnug, Bool.and_eq_true] at h
  exact h.1

theorem forestSnug_le :
    ∀ (cs : List Node) (lo hi : Pos), forestSnug lo cs hi = true →
    posLe lo hi = true
  | [], lo, hi => fun h => by
    rw [forestSnug, beq_iff_eq] at h
    rw [h]
    exact posLe_refl _
  | .mk t s e ccs :: rest, lo, hi => fun h => by
    rw [forestSnug] at h
    obtain ⟨⟨h₁, h₂⟩, h₃⟩ := by simpa using h
    rw [h₁]
    exact posLe_trans (nodeSnug_le h₂) (forestSnug_le rest e hi h₃)

mutual

/-- Containment in a snug tree: every node lies inside the root's span
and has a well-formed span of its own. -/
theorem nodeSnug_mem : ∀ {n m : Node}, nodeSnug n = true → m ∈ nodesOf n →
    posLe n.startPoint m.startPoint = true ∧
    posLe m.endPoint n.endPoint = true ∧
    posLe m.startPoint m.endPoint = true
  | .mk t s e cs, m, hsnug, hmem => by
    rw [nodeSnug, Bool.and_eq_true] at hsnug
    obtain ⟨hse, hrest⟩ := hsnug
    rw [nodesOf] at hmem
    rcases List.mem_cons.mp hmem with hm | hm
    · subst hm
      exact ⟨posLe_refl _, posLe_refl _, hse⟩
    · rcases cs with _ | ⟨c, cs'⟩
      · rw [nodesOfL] at hm
        cases hm
      · rw [Bool.or_eq_true] at hrest
        rcases hrest with habs | hforest
        · simp at habs
        · have h := forestSnug_mem hforest hm
          exact ⟨h.1, h.2.1, h.2.2⟩

theorem forestSnug_mem : ∀ {cs : List Node} {lo hi : Pos} {m : Node},
    forestSnug lo cs hi = true → m ∈ nodesOfL cs →
    posLe lo m.startPoint = true ∧ posLe m.endPoint hi = true ∧
    posLe m.startPoint m.endPoint = true
  | [], lo, hi, m, _, hmem => by
    rw [nodesOfL] at hmem
    cases hmem
  | .mk t s e ccs :: rest, lo, hi, m, hsnug, hmem => by
    rw [forestSnug] at hsnug
    obtain ⟨⟨hlo, hnode⟩, hrest⟩ := by simpa using hsnug
    rw [nodesOfL] at hmem
    rcases List.mem_append.mp hmem with hm | hm
    · have h := nodeSnug_mem hnode hm
      refine ⟨by rw [hlo]; exact h.1, ?_, h.2.2⟩
      exact posLe_trans h.2.1 (forestSnug_le rest e hi hrest)
    · have h := forestSnug_mem hrest hm
      refine ⟨?_, h.2.1, h.2.2⟩
      rw [hlo]
      exact posLe_trans (nodeSnug_le hnode) h.1

end

/-- A successful flush starts at or before its target. -/
theorem moveCursor_le {lines : List Line} {c d : Pos} {r : Pos × Line}
    (h : moveCursor lines c d = some r) : posLe c d = true := by
  rw [moveCursor.eq_def] at h
  rcases hb : posLe c d with _ | _
  · rw [if_pos hb] at h
    exact Option.noConfusion h
  · rfl

/-- Flushing in place copies nothing. -/
theorem moveCursor_self (lines : List Line) (c : Pos) :
    moveCursor lines c c = some (c, []) := by
  rw [moveCursor.eq_def]
  rw [if_neg (by rw [posLe_refl]; decide)]
  rw [if_neg (by omega : ¬ c.1 < c.1), if_neg (by omega : ¬ c.2 < c.2)]

/-- With the cursor past the delayed target, the final join flushes
nothing. -/
theorem runExec_nil_noflush (lines : List Line) (out : Line) (c d : Pos)
    (h : posLe c d = false) :
    runExec lines (⟨[], out, c, d⟩ : ExecState) = some out := by
  rw [runExec.eq_def]
  simp only [h]
  rfl

theorem compileUpdate_text (t : Line) (subs : List EditTree)
    (lines : List Line) : compileUpdate (.text t) subs lines = some t := by
  rw [compileUpdate.eq_def]

theorem pruneChild_sourceNode (e : EditTree) :
    (pruneChild e).sourceNode = e.sourceNode := by
  rcases e with ⟨m, _ | u, cs⟩ <;> rfl

theorem pruneChild_of_isSome {e : EditTree} (h : e.targetEdit.isSome = true) :
    pruneChild e = e := by
  rcases e with ⟨m, _ | u, cs⟩
  · rw [EditTree.targetEdit] at h
    exact absurd h (by decide)
  · rfl

/-- `EditExecutor._execute_noop`: pop, check the cursor is not past the
node, record the node's end as the delayed flush target. -/
theorem runExec_noop_step {lines : List Line} (e : EditTree)
    (rest : List EditTree) (out : Line) (c d : Pos)
    (he : e.targetEdit = none)
    (hle : posLe c e.sourceNode.endPoint = true) :
    runExec lines ⟨e :: rest, out, c, d⟩ =
      runExec lines ⟨rest, out, c, e.sourceNode.endPoint⟩ := by
  rw [runExec_cons (by simp)]
  have hstep : execStep lines ⟨e :: rest, out, c, d⟩ =
      some ⟨rest, out, c, e.sourceNode.endPoint⟩ := by
    rcases e with ⟨n, u, cs⟩
    rw [EditTree.targetEdit] at he
    subst he
    rw [EditTree.sourceNode] at hle ⊢
    rw [execStep]
    dsimp only [EditTree.targetEdit, EditTree.sourceNode]
    rw [if_pos hle]
  rw [hstep]

/-- `EditExecutor._execute_subtree`: pop and push the children. -/
theorem runExec_subtree_step {lines : List Line} (e : EditTree)
    (rest : List EditTree) (out : Line) (c d : Pos)
    (he : e.targetEdit = some .subtree) :
    runExec lines ⟨e :: rest, out, c, d⟩ =
      runExec lines ⟨e.children ++ rest, out, c, d⟩ := by
  rw [runExec_cons (by simp)]
  have hstep : execStep lines ⟨e :: rest, out, c, d⟩ =
      some ⟨e.children ++ rest, out, c, d⟩ := by
    rcases e with ⟨n, u, cs⟩
    rw [EditTree.targetEdit] at he
    subst he
    rw [execStep]
    dsimp only [EditTree.targetEdit, EditTree.sourceNode, EditTree.children]
  rw [hstep]

/-- `EditExecutor._execute` on a `TextUpdate` whose delayed flush ends
exactly at the delayed position: flush the pending window, emit the
replacement text, and jump the cursor to the edited node's end. -/
theorem runExec_text_step {lines : List Line} (n : Node)
    (cs' rest : List EditTree) (out t₀ front : Line) (c d : Pos)
    (hle : posLe c d = true)
    (hmv : moveCursor lines c d = some (d, front)) :
    runExec lines ⟨.mk n (some (.text t₀)) cs' :: rest, out, c, d⟩ =
      runExec lines ⟨rest, out ++ front ++ t₀, n.endPoint, d⟩ := by
  rw [runExec_cons (by simp)]
  have hstep : execStep lines ⟨.mk n (some (.text t₀)) cs' :: rest, out, c, d⟩ =
      some ⟨rest, out ++ front ++ t₀, n.endPoint, d⟩ := by
    rw [execStep]
    dsimp only [EditTree.targetEdit, EditTree.sourceNode, EditTree.children]
    rw [if_pos hle, hmv]
    dsimp only []
    rw [compileUpdate_text]
  rw [hstep]

/-- The claim's handler family: exactly one node `N` carries a concrete
(text) edit, every other handler returns no edit. -/
def singleEdit (N : Node) (t₀ : Line) : Node → Option EditUpdate :=
  fun m => if m = N then some (.text t₀) else none

theorem singleEdit_self (N : Node) (t₀ : Line) :
    singleEdit N t₀ N = some (.text t₀) := by
  rw [singleEdit]
  exact if_pos rfl

theorem singleEdit_other {N m : Node} (t₀ : Line) (h : ¬ m = N) :
    singleEdit N t₀ m = none := by
  rw [singleEdit]
  exact if_neg h

/-- Outside `N`'s subtree the synthesized edit tree is operation-free. -/
theorem buildEdit_single_none {N : Node} {t₀ : Line} {n : Node}
    (h : N ∉ nodesOf n) :
    (buildEdit (singleEdit N t₀) n).targetEdit = none := by
  refine (buildEdit_target_none _ n).mpr ?_
  intro m hm
  refine singleEdit_other t₀ ?_
  intro hcontr
  rw [hcontr] at hm
  exact h hm

/-- On the path to `N` (strictly above it) the synthesized edit tree
carries the `SubtreeUpdate` coercion. -/
theorem buildEdit_single_subtree {N : Node} {t₀ : Line} {n : Node}
    (hmem : N ∈ nodesOf n) (hne : ¬ n = N) :
    (buildEdit (singleEdit N t₀) n).targetEdit = some .subtree := by
  rcases n with ⟨t, s, e, cs⟩
  have hnone : singleEdit N t₀ (.mk t s e cs) = none :=
    singleEdit_other t₀ hne
  rcases htv : (buildEdit (singleEdit N t₀) (.mk t s e cs)).targetEdit
    with _ | u
  · have := (buildEdit_target_none _ _).mp htv N hmem
    rw [singleEdit_self] at this
    exact Option.noConfusion this
  · rw [buildEdit, mkEditTree_target, hnone] at htv
    simp only [Option.isNone_none, Bool.true_and] at htv
    split at htv
    · rw [← htv]
    · exact Option.noConfusion htv

/-- An edit tree containing the edited node is kept intact by the
parent's pruning. -/
theorem pruneChild_buildEdit_single {N : Node} {t₀ : Line} {n : Node}
    (hmem : N ∈ nodesOf n) :
    pruneChild (buildEdit (singleEdit N t₀) n) =
      buildEdit (singleEdit N t₀) n := by
  refine pruneChild_of_isSome ?_
  by_cases hne : n = N
  · subst hne
    rcases n with ⟨t, s, e, cs⟩
    rw [buildEdit, mkEditTree_target, singleEdit_self]
    split <;> rfl
  · rw [buildEdit_single_subtree hmem hne]
    rfl

/-- Running a snug noop forest: each tree is popped with one
`_execute_noop`, leaving the cursor in place and the delayed flush
target at the window's end. -/
theorem runExec_noops {lines : List Line} {N : Node} {t₀ : Line} :
    ∀ (cs : List Node) (lo hi : Pos) (rest : List EditTree) (out : Line)
      (cur d : Pos),
    forestSnug lo cs hi = true →
    (∀ m ∈ nodesOfL cs, ¬ m = N) →
    posLe cur lo = true →
    runExec lines
        ⟨(buildEditL (singleEdit N t₀) cs).map pruneChild ++ rest,
          out, cur, d⟩ =
      runExec lines ⟨rest, out, cur, if cs.isEmpty then d else hi⟩
  | [], lo, hi, rest, out, cur, d => fun _ _ _ => by
    rw [buildEditL]
    rfl
  | .mk t s e ccs :: cs', lo, hi, rest, out, cur, d => fun hsnug hfree hle => by
    rw [forestSnug] at hsnug
    obtain ⟨⟨hlo, hnode⟩, hrest⟩ := by simpa using hsnug
    have hhead : N ∉ nodesOf (.mk t s e ccs) := by
      intro hc
      exact hfree N (by rw [nodesOfL]; exact List.mem_append_left _ hc) rfl
    have htgt : (pruneChild (buildEdit (singleEdit N t₀)
        (.mk t s e ccs))).targetEdit = none := by
      rw [pruneChild_target]
      exact buildEdit_single_none hhead
    rw [buildEditL, List.map_cons, List.cons_append]
    rw [runExec_noop_step _ _ _ _ _ htgt (by
      rw [pruneChild_sourceNode, buildEdit_sourceNode]
      refine posLe_trans hle ?_
      rw [hlo]
      exact nodeSnug_le hnode)]
    rw [pruneChild_sourceNode, buildEdit_sourceNode]
    have hrec := @runExec_noops lines N t₀ cs' (Node.mk t s e ccs).endPoint hi rest out cur
      (Node.mk t s e ccs).endPoint hrest
      (fun m hm => hfree m (by rw [nodesOfL]; exact List.mem_append_right _ hm))
      (by
        refine posLe_trans hle ?_
        rw [hlo]
        exact nodeSnug_le hnode)
    rw [hrec]
    rcases cs' with _ | ⟨c₂, cs₂⟩
    · rw [forestSnug, beq_iff_eq] at hrest
      rw [hrest]
      rfl
    · rfl

theorem mkEditTree_some (n : Node) (u : EditUpdate) (ch : List EditTree) :
    mkEditTree n (some u) ch = .mk n (some u) (ch.map pruneChild) := by
  rw [mkEditTree]
  rw [if_neg (by simp)]

theorem startPoint_mk (t : String) (s e : Pos) (cs : List Node) :
    (Node.mk t s e cs).startPoint = s := rfl

theorem endPoint_mk (t : String) (s e : Pos) (cs : List Node) :
    (Node.mk t s e cs).endPoint = e := rfl

mutual

/-- Running the synthesized edit tree of a snug subtree containing the
single edited node `N`: the pending window is flushed up to `N`'s
start, the replacement text is emitted, the cursor jumps to `N`'s end,
and the delayed flush target leaves as the subtree's end — or stays at
`N`'s start when `N` closes the subtree. -/
theorem editRun_node {lines : List Line} {N : Node} {t₀ front : Line}
    {c₀ : Pos}
    (hfront : moveCursor lines c₀ N.startPoint = some (N.startPoint, front)) :
    ∀ (n : Node) (rest : List EditTree) (out : Line),
    nodeSnug n = true →
    (nodesOf n).count N = 1 →
    posLe c₀ n.startPoint = true →
    ∃ dex : Pos,
      (dex = n.endPoint ∨ (dex = N.startPoint ∧ N.endPoint = n.endPoint)) ∧
      runExec lines
          ⟨buildEdit (singleEdit N t₀) n :: rest, out, c₀, n.startPoint⟩ =
        runExec lines ⟨rest, out ++ front ++ t₀, N.endPoint, dex⟩
  | .mk ty s e cs, rest, out => fun hsnug hcount hc₀ => by
    by_cases hn : Node.mk ty s e cs = N
    · subst hn
      refine ⟨(Node.mk ty s e cs).startPoint, Or.inr ⟨rfl, rfl⟩, ?_⟩
      rw [buildEdit, singleEdit_self, mkEditTree_some]
      exact runExec_text_step _ _ _ _ _ _ _ _ (moveCursor_le hfront) hfront
    · have hcnt : (nodesOfL cs).count N = 1 := by
        rw [nodesOf, List.count_cons] at hcount
        rw [if_neg (by
          rw [beq_iff_eq]
          exact fun hcontr => hn hcontr)] at hcount
        simpa using hcount
      have hmem : N ∈ nodesOfL cs := by
        by_contra hcontr
        rw [List.count_eq_zero.mpr hcontr] at hcnt
        exact absurd hcnt (by decide)
      have hmemN : N ∈ nodesOf (.mk ty s e cs) := by
        rw [nodesOf]
        exact List.mem_cons_of_mem _ hmem
      have hforest : forestSnug s cs e = true := by
        rw [nodeSnug, Bool.and_eq_true, Bool.or_eq_true] at hsnug
        rcases hsnug.2 with hemp | hf
        · rcases cs with _ | ⟨c, cs'⟩
          · rw [nodesOfL] at hmem
            cases hmem
          · simp at hemp
        · exact hf
      rw [runExec_subtree_step _ _ _ _ _
        (buildEdit_single_subtree hmemN hn)]
      have hch : (buildEdit (singleEdit N t₀) (.mk ty s e cs)).children =
          (buildEditL (singleEdit N t₀) cs).map pruneChild := by
        rw [buildEdit, mkEditTree_children]
      rw [hch]
      exact editRun_forest hfront cs s e rest out hforest hcnt hc₀

/-- The forest version of `editRun_node`: siblings before the subtree
containing `N` are popped as noops, the containing subtree runs the
edit, siblings after it are popped as noops. -/
theorem editRun_forest {lines : List Line} {N : Node} {t₀ front : Line}
    {c₀ : Pos}
    (hfront : moveCursor lines c₀ N.startPoint = some (N.startPoint, front)) :
    ∀ (cs : List Node) (lo hi : Pos) (rest : List EditTree) (out : Line),
    forestSnug lo cs hi = true →
    (nodesOfL cs).count N = 1 →
    posLe c₀ lo = true →
    ∃ dex : Pos,
      (dex = hi ∨ (dex = N.startPoint ∧ N.endPoint = hi)) ∧
      runExec lines
          ⟨(buildEditL (singleEdit N t₀) cs).map pruneChild ++ rest,
            out, c₀, lo⟩ =
        runExec lines ⟨rest, out ++ front ++ t₀, N.endPoint, dex⟩
  | [], lo, hi, rest, out => fun _ hcount _ => by
    rw [nodesOfL] at hcount
    simp at hcount
  | .mk tc sc ec ccs :: cs', lo, hi, rest, out => fun hsnug hcount hc₀ => by
    rw [forestSnug] at hsnug
    obtain ⟨⟨hlo, hnode⟩, hrest⟩ := by simpa using hsnug
    rw [hlo] at hc₀ ⊢
    rw [nodesOfL, List.count_append] at hcount
    rw [buildEditL, List.map_cons, List.cons_append]
    by_cases hNc : N ∈ nodesOf (.mk tc sc ec ccs)
    · have hpos : (nodesOf (.mk tc sc ec ccs)).count N ≠ 0 := by
        intro h0
        exact List.count_eq_zero.mp h0 hNc
      have hc1 : (nodesOf (.mk tc sc ec ccs)).count N = 1 := by omega
      have hc0 : (nodesOfL cs').count N = 0 := by omega
      rw [pruneChild_buildEdit_single hNc]
      obtain ⟨dex₁, hdex₁, hrun₁⟩ := editRun_node hfront (.mk tc sc ec ccs)
        ((buildEditL (singleEdit N t₀) cs').map pruneChild ++ rest) out
        hnode hc1 hc₀
      rw [endPoint_mk] at hdex₁
      rw [startPoint_mk] at hrun₁
      rw [hrun₁]
      have hNe : posLe N.endPoint ec = true := by
        have h := nodeSnug_mem hnode hNc
        rw [endPoint_mk] at h
        exact h.2.1
      have hfree : ∀ m ∈ nodesOfL cs', ¬ m = N := by
        intro m hm hcontr
        rw [hcontr] at hm
        exact List.count_eq_zero.mp hc0 hm
      rw [@runExec_noops lines N t₀ cs' ec hi rest (out ++ front ++ t₀)
        N.endPoint dex₁ hrest hfree hNe]
      rcases cs' with _ | ⟨c₂, cs₂⟩
      · rw [forestSnug, beq_iff_eq] at hrest
        refine ⟨dex₁, ?_, rfl⟩
        rcases hdex₁ with h | ⟨h₁, h₂⟩
        · exact Or.inl (by rw [h, hrest])
        · exact Or.inr ⟨h₁, by rw [h₂, hrest]⟩
      · exact ⟨hi, Or.inl rfl, rfl⟩
    · have hc0 : (nodesOf (.mk tc sc ec ccs)).count N = 0 :=
        List.count_eq_zero.mpr hNc
      have hcnt' : (nodesOfL cs').count N = 1 := by omega
      have htgt : (pruneChild (buildEdit (singleEdit N t₀)
          (.mk tc sc ec ccs))).targetEdit = none := by
        rw [pruneChild_target]
        exact buildEdit_single_none hNc
      rw [runExec_noop_step _ _ _ _ _ htgt (by
        rw [pruneChild_sourceNode, buildEdit_sourceNode]
        exact posLe_trans hc₀ (nodeSnug_le hnode))]
      rw [pruneChild_sourceNode, buildEdit_sourceNode, endPoint_mk]
      have hsle := nodeSnug_le hnode
      rw [startPoint_mk, endPoint_mk] at hsle
      exact editRun_forest hfront cs' ec hi rest out hrest hcnt'
        (posLe_trans hc₀ hsle)

end

/-- C2 (amended): for a gap-free (snug) tree whose root starts at the
origin, an edit confined to the single node `N` produces exactly: the
source text before `N`'s span, the replacement text, the source text
after `N`'s span.  Everything strictly outside `N`'s span is copied
verbatim. -/
theorem single_edit_localization
    (lines : List Line) (R N : Node) (t₀ front back : Line)
    (hsnug : nodeSnug R = true)
    (hcount : (nodesOf R).count N = 1)
    (hR0 : R.startPoint = (0, 0))
    (hfront : moveCursor lines (0, 0) N.startPoint =
      some (N.startPoint, front))
    (hback : moveCursor lines N.endPoint R.endPoint =
      some (R.endPoint, back)) :
    astTransform (singleEdit N t₀) R lines = some (front ++ t₀ ++ back) := by
  rw [astTransform_eq, EditTree.applyEdit]
  obtain ⟨dex, hdex, hrun⟩ := editRun_node hfront R [] [] hsnug hcount
    (by rw [hR0]; exact posLe_zero _)
  rw [hR0] at hrun
  rw [hrun]
  have hmemN : N ∈ nodesOf R := by
    by_contra hc
    rw [List.count_eq_zero.mpr hc] at hcount
    exact absurd hcount (by decide)
  have hNwf : posLe N.startPoint N.endPoint = true :=
    (nodeSnug_mem hsnug hmemN).2.2
  rcases hdex with hdexR | ⟨hdexS, hNR⟩
  · subst hdexR
    rw [runExec_nil lines _ N.endPoint R.endPoint (moveCursor_le hback),
      hback]
    simp
  · subst hdexS
    have hback' : back = [] := by
      rw [← hNR, moveCursor_self] at hback
      have h := Option.some.inj hback
      exact (Prod.ext_iff.mp h).2.symm
    rcases hq : posLe N.endPoint N.startPoint with _ | _
    · rw [runExec_nil_noflush lines _ _ _ hq, hback']
      simp
    · have heq : N.endPoint = N.startPoint := posLe_antisymm hq hNwf
      rw [runExec_nil lines _ _ _ hq, heq, moveCursor_self, hback']
      simp

def exLocTree : Node :=
  .mk "module" (0, 0) (0, 3)
    [.mk "expr" (0, 0) (0, 3)
      [.mk "id" (0, 0) (0, 1) [], .mk "op" (0, 1) (0, 2) [],
        .mk "id" (0, 2) (0, 3) []]]

def exLocLeaf : Node := .mk "id" (0, 2) (0, 3) []

theorem single_edit_localization_witness :
    nodeSnug exLocTree = true ∧
    (nodesOf exLocTree).count exLocLeaf = 1 ∧
    astTransform (singleEdit exLocLeaf ['X']) exLocTree [['a', '+', 'b']] =
      some (['a', '+'] ++ ['X'] ++ []) :=
  ⟨by decide, by decide,
    single_edit_localization [['a', '+', 'b']] exLocTree exLocLeaf
      ['X'] ['a', '+'] []
      (by decide) (by decide) (by decide)
      (by rw [moveCursor.eq_def]; decide)
      (by rw [moveCursor.eq_def]; decide)⟩

def exGapTree : Node :=
  .mk "module" (0, 0) (0, 5)
    [.mk "id" (0, 0) (0, 2) [], .mk "id" (0, 3) (0, 5) []]

def exGapLeaf : Node := .mk "id" (0, 3) (0, 5) []

/-- C2 (counterexample): the localization law fails on trees with
whitespace gaps between sibling spans — exactly the situation of real
parses, where `" x + y"`'s space is no node's span.  In the well-formed
tree `exGapTree` over `"ab cd"`, editing only the leaf spanning columns
3-5 produces `"abXY"`: the space at column 2, strictly outside the
edited span, is dropped, because `_execute` flushes only up to the
delayed position (the previous noop's end) and then jumps the cursor to
the edited node's end. -/
theorem single_edit_drops_gap :
    nodeWF exGapTree = true ∧
    (nodesOf exGapTree).count exGapLeaf = 1 ∧
    astTransform (singleEdit exGapLeaf ['X', 'Y']) exGapTree
      [['a', 'b', ' ', 'c', 'd']] = some ['a', 'b', 'X', 'Y'] ∧
    (['a', 'b', 'X', 'Y'] : Line) ≠ ['a', 'b', ' '] ++ ['X', 'Y'] ++ [] := by
  refine ⟨by decide, by decide, ?_, by decide⟩
  rw [astTransform_eq, EditTree.applyEdit]
  have hT : buildEdit (singleEdit exGapLeaf ['X', 'Y']) exGapTree =
      .mk exGapTree (some .subtree)
        [.mk (.mk "id" (0, 0) (0, 2) []) none [],
          .mk exGapLeaf (some (.text ['X', 'Y'])) []] := rfl
  rw [hT]
  rw [runExec_subtree_step
    (.mk exGapTree (some .subtree)
      [.mk (.mk "id" (0, 0) (0, 2) []) none [],
        .mk exGapLeaf (some (.text ['X', 'Y'])) []]) _ _ _ _ rfl]
  dsimp only [EditTree.children]
  rw [List.cons_append, List.cons_append, List.nil_append]
  rw [runExec_noop_step (.mk (.mk "id" (0, 0) (0, 2) []) none [])
    _ _ _ _ rfl (by decide)]
  dsimp only [EditTree.sourceNode, Node.endPoint]
  rw [runExec_text_step _ _ _ _ _ ['a', 'b'] _ _ (by decide)
    (by rw [moveCursor.eq_def]; decide)]
  rw [runExec_nil_noflush _ _ _ _ (by decide)]
  decide

end CodeAst
